import Mathlib

/-!
# Verification of the dagit identity / messaging / feed core

A shallow embedding of the Python sources of `dagit` (files
`src/dagit/identity.py`, `src/dagit/messages.py`, `src/dagit/feed.py`),
with theorems checking the natural-language specification's claims.

Bytes are modelled as `List Nat` (each element intended `< 256`; the
hypotheses of the theorems state that bound where it matters).  Python
exceptions are modelled with `Except Err`: `ValueError` (including its
subclasses such as `json.JSONDecodeError` and `binascii.Error`),
`OverflowError`, `TypeError` and `AttributeError` are distinguished
because the `except` clauses in the source distinguish them.
-/

/-- Python exception classes that the source code's `except` clauses
distinguish.  `valueError` covers `ValueError` and its subclasses
(`json.JSONDecodeError`, `binascii.Error`); `overflowError` is
`OverflowError`, which is *not* a `ValueError` (it derives from
`ArithmeticError`), so handlers for `ValueError` let it escape. -/
inductive Err where
  | valueError
  | overflowError
  | typeError
  | attributeError
  deriving DecidableEq

/-! ## Positional number systems

`int.from_bytes(_, "big")`, `int.to_bytes`, and the hand-rolled base-58
and base-36 loops in the source are all positional encodings; we build
them from little-endian digit lists. -/

/-- Little-endian digits of `n` in base `b` (most significant last, no
leading zeros).  Empty for `n = 0`. -/
def toDigitsRev (b n : Nat) : List Nat :=
  if _h : n = 0 ∨ b < 2 then [] else (n % b) :: toDigitsRev b (n / b)
  termination_by n
  decreasing_by
    have hn : n ≠ 0 := by tauto
    exact Nat.div_lt_self (Nat.pos_of_ne_zero hn) (by omega)

/-- Value of a little-endian digit list in base `b`. -/
def ofDigitsRev (b : Nat) : List Nat → Nat
  | [] => 0
  | d :: ds => d + b * ofDigitsRev b ds

theorem ofDigitsRev_toDigitsRev (b : Nat) (hb : 2 ≤ b) :
    ∀ n, ofDigitsRev b (toDigitsRev b n) = n := by
  intro n
  induction n using Nat.strongRecOn with
  | _ n ih =>
    rw [toDigitsRev]
    by_cases h : n = 0 ∨ b < 2
    · simp only [h, dite_true]
      have : n = 0 := by omega
      simp [ofDigitsRev, this]
    · simp only [h, dite_false]
      have hn : n ≠ 0 := by tauto
      rw [ofDigitsRev, ih (n / b) (Nat.div_lt_self (Nat.pos_of_ne_zero hn) (by omega))]
      have := Nat.mod_add_div n b
      omega

theorem toDigitsRev_zero (b : Nat) : toDigitsRev b 0 = [] := by
  rw [toDigitsRev]; simp

/-- `toDigitsRev` is injective for a fixed base `≥ 2` (read the value back). -/
theorem toDigitsRev_injective (b : Nat) (hb : 2 ≤ b) {m n : Nat}
    (h : toDigitsRev b m = toDigitsRev b n) : m = n := by
  have hm := ofDigitsRev_toDigitsRev b hb m
  have hn := ofDigitsRev_toDigitsRev b hb n
  rw [h] at hm
  omega

/-! ## Bytes and big-endian integers -/

/-- `int.to_bytes(length, "big")`, little-endian helper: exactly `len`
base-256 digits of `n`, least significant first (truncates high bits). -/
def natToBytesLE (len n : Nat) : List Nat :=
  match len with
  | 0 => []
  | k + 1 => (n % 256) :: natToBytesLE k (n / 256)

/-- `int.to_bytes(length, "big")` without the overflow check: `len`
big-endian bytes of `n`. -/
def natToBytesRaw (len n : Nat) : List Nat :=
  (natToBytesLE len n).reverse

/-- `int.from_bytes(bytes, "big")`. -/
def bytesToNat (bs : List Nat) : Nat :=
  ofDigitsRev 256 bs.reverse

/-- Model of `int.to_bytes(length, "big")`: `none` models the
`OverflowError` Python raises when `n` does not fit in `length` bytes. -/
def natToBytes (len n : Nat) : Option (List Nat) :=
  if n < 256 ^ len then some (natToBytesRaw len n) else none

theorem length_natToBytesLE (len n : Nat) : (natToBytesLE len n).length = len := by
  induction len generalizing n with
  | zero => rfl
  | succ k ih => simp [natToBytesLE, ih]

theorem ofDigitsRev_natToBytesLE (len n : Nat) (h : n < 256 ^ len) :
    ofDigitsRev 256 (natToBytesLE len n) = n := by
  induction len generalizing n with
  | zero => simp at h; simp [natToBytesLE, ofDigitsRev, h]
  | succ k ih =>
    have hdiv : n / 256 < 256 ^ k := by
      rw [Nat.div_lt_iff_lt_mul (by norm_num)]
      calc n < 256 ^ (k + 1) := h
        _ = 256 ^ k * 256 := by ring
    simp only [natToBytesLE, ofDigitsRev, ih (n / 256) hdiv]
    omega

theorem natToBytesLE_ofDigitsRev (l : List Nat) (hb : ∀ x ∈ l, x < 256) :
    natToBytesLE l.length (ofDigitsRev 256 l) = l := by
  induction l with
  | nil => rfl
  | cons d ds ih =>
    have hd : d < 256 := hb d (by simp)
    have hds : ∀ x ∈ ds, x < 256 := fun x hx => hb x (by simp [hx])
    simp only [List.length_cons, natToBytesLE, ofDigitsRev]
    have h1 : (d + 256 * ofDigitsRev 256 ds) % 256 = d := by omega
    have h2 : (d + 256 * ofDigitsRev 256 ds) / 256 = ofDigitsRev 256 ds := by omega
    rw [h1, h2, ih hds]

theorem ofDigitsRev_lt (l : List Nat) (hb : ∀ x ∈ l, x < 256) :
    ofDigitsRev 256 l < 256 ^ l.length := by
  induction l with
  | nil => simp [ofDigitsRev]
  | cons d ds ih =>
    have hd : d < 256 := hb d (by simp)
    have hds := ih (fun x hx => hb x (by simp [hx]))
    simp only [ofDigitsRev, List.length_cons, pow_succ]
    calc d + 256 * ofDigitsRev 256 ds
        < 256 + 256 * ofDigitsRev 256 ds := by omega
      _ ≤ 256 + 256 * (256 ^ ds.length - 1) := by
          have : ofDigitsRev 256 ds ≤ 256 ^ ds.length - 1 := by omega
          omega
      _ ≤ 256 ^ ds.length * 256 := by
          have : 1 ≤ 256 ^ ds.length := Nat.one_le_pow _ _ (by norm_num)
          omega

theorem bytesToNat_lt (bs : List Nat) (hb : ∀ x ∈ bs, x < 256) :
    bytesToNat bs < 256 ^ bs.length := by
  have := ofDigitsRev_lt bs.reverse (fun x hx => hb x (List.mem_reverse.mp hx))
  simpa [bytesToNat] using this

/-- Round trip: writing back `int.from_bytes(bs, "big")` with
`to_bytes(len(bs), "big")` recovers `bs`. -/
theorem natToBytesRaw_bytesToNat (bs : List Nat) (hb : ∀ x ∈ bs, x < 256) :
    natToBytesRaw bs.length (bytesToNat bs) = bs := by
  have hrev : ∀ x ∈ bs.reverse, x < 256 := fun x hx => hb x (List.mem_reverse.mp hx)
  have := natToBytesLE_ofDigitsRev bs.reverse hrev
  simp only [bytesToNat, natToBytesRaw]
  rw [show bs.length = bs.reverse.length by simp, this, List.reverse_reverse]

theorem bytesToNat_natToBytesRaw (len n : Nat) (h : n < 256 ^ len) :
    bytesToNat (natToBytesRaw len n) = n := by
  simp only [bytesToNat, natToBytesRaw, List.reverse_reverse]
  exact ofDigitsRev_natToBytesLE len n h

/-- `int.from_bytes` is injective on byte lists of equal length. -/
theorem bytesToNat_injective {xs ys : List Nat} (hx : ∀ b ∈ xs, b < 256)
    (hy : ∀ b ∈ ys, b < 256) (hlen : xs.length = ys.length)
    (h : bytesToNat xs = bytesToNat ys) : xs = ys := by
  have := natToBytesRaw_bytesToNat xs hx
  rw [h, hlen, natToBytesRaw_bytesToNat ys hy] at this
  exact this.symm

/-! ## Positional alphabet encodings

The source hand-rolls base-58 (identity.py) and base-36 (feed.py) on top
of Python big integers.  Both loops produce the big-endian digit string
of the integer with no leading-zero digits; we factor them through a
common encoder. -/

/-- Python `str.index`-style lookup: index of the first occurrence. -/
def strIndex (alphabet : List Char) (c : Char) : Option Nat :=
  alphabet.findIdx? (· = c)

/-- The common shape of the base-58 and base-36 encode loops of the
source: big-endian digit characters of `n`, empty for `n = 0`. -/
def baseEncode (alphabet : List Char) (n : Nat) : List Char :=
  ((toDigitsRev alphabet.length n).map (fun d => alphabet.getD d ' ')).reverse

/-- The base-58 decode loop of `_decode_did_key`:
`num = num * 58 + ALPHABET.index(char)`, where a character outside the
alphabet raises `ValueError`. -/
def baseDecodeAux (alphabet : List Char) (acc : Nat) : List Char → Except Err Nat
  | [] => .ok acc
  | c :: cs =>
    match strIndex alphabet c with
    | none => .error .valueError
    | some v => baseDecodeAux alphabet (acc * alphabet.length + v) cs

def baseDecode (alphabet : List Char) (s : List Char) : Except Err Nat :=
  baseDecodeAux alphabet 0 s

theorem toDigitsRev_lt_base (b : Nat) (hb : 2 ≤ b) :
    ∀ n, ∀ d ∈ toDigitsRev b n, d < b := by
  intro n
  induction n using Nat.strongRecOn with
  | _ n ih =>
    rw [toDigitsRev]
    by_cases h : n = 0 ∨ b < 2
    · simp [h]
    · simp only [h, dite_false, List.mem_cons]
      intro d hd
      rcases hd with hd | hd
      · subst hd; exact Nat.mod_lt n (by omega)
      · have hn : n ≠ 0 := by tauto
        exact ih (n / b) (Nat.div_lt_self (Nat.pos_of_ne_zero hn) (by omega)) d hd

theorem ofDigitsRev_append (b : Nat) (xs ys : List Nat) :
    ofDigitsRev b (xs ++ ys) = ofDigitsRev b xs + b ^ xs.length * ofDigitsRev b ys := by
  induction xs with
  | nil => simp [ofDigitsRev]
  | cons d ds ih =>
    rw [List.cons_append]
    show d + b * ofDigitsRev b (ds ++ ys)
        = (d + b * ofDigitsRev b ds) + b ^ (d :: ds).length * ofDigitsRev b ys
    rw [ih, List.length_cons, pow_succ]
    ring

theorem baseDecodeAux_map (alphabet : List Char)
    (hidx : ∀ d : Fin alphabet.length, strIndex alphabet (alphabet.getD d.val ' ') = some d.val) :
    ∀ (ds : List Nat) (acc : Nat), (∀ d ∈ ds, d < alphabet.length) →
      baseDecodeAux alphabet acc (ds.map (fun d => alphabet.getD d ' ')) =
        .ok (acc * alphabet.length ^ ds.length + ofDigitsRev alphabet.length ds.reverse) := by
  intro ds
  induction ds with
  | nil => intro acc _; simp [baseDecodeAux, ofDigitsRev]
  | cons d rest ih =>
    intro acc h
    have hd : d < alphabet.length := h d (by simp)
    simp only [List.map_cons, baseDecodeAux, hidx ⟨d, hd⟩]
    rw [ih (acc * alphabet.length + d) (fun x hx => h x (by simp [hx]))]
    congr 1
    rw [List.reverse_cons, ofDigitsRev_append]
    simp only [List.length_reverse, List.length_cons, ofDigitsRev, pow_succ]
    ring

theorem baseDecode_baseEncode (alphabet : List Char) (hb : 2 ≤ alphabet.length)
    (hidx : ∀ d : Fin alphabet.length, strIndex alphabet (alphabet.getD d.val ' ') = some d.val)
    (n : Nat) : baseDecode alphabet (baseEncode alphabet n) = .ok n := by
  unfold baseDecode baseEncode
  rw [show ((toDigitsRev alphabet.length n).map (fun d => alphabet.getD d ' ')).reverse
        = (toDigitsRev alphabet.length n).reverse.map (fun d => alphabet.getD d ' ') by
      rw [List.map_reverse]]
  rw [baseDecodeAux_map alphabet hidx _ 0
      (fun d hd => toDigitsRev_lt_base alphabet.length hb n d (List.mem_reverse.mp hd))]
  rw [List.reverse_reverse, ofDigitsRev_toDigitsRev _ hb]
  simp

theorem baseEncode_injective (alphabet : List Char) (hb : 2 ≤ alphabet.length)
    (hidx : ∀ d : Fin alphabet.length, strIndex alphabet (alphabet.getD d.val ' ') = some d.val)
    {m n : Nat} (h : baseEncode alphabet m = baseEncode alphabet n) : m = n := by
  have hm := baseDecode_baseEncode alphabet hb hidx m
  have hn := baseDecode_baseEncode alphabet hb hidx n
  rw [h, hn] at hm
  exact (Except.ok.injEq _ _).mp hm |>.symm

/-! ## `identity.py`: the did:key codec -/

/-- Multicodec prefix for Ed25519 public keys (`0xed01`). -/
def ED25519_MULTICODEC : List Nat := [0xed, 0x01]

/-- The Bitcoin base-58 alphabet from `_encode_did_key` / `_decode_did_key`. -/
def B58ALPHABET : List Char :=
  "123456789ABCDEFGHJKLMNPQRSTUVWXYZabcdefghijkmnopqrstuvwxyz".toList

/-- `identity._encode_did_key`: multicodec-prefix the key, base-58btc
encode the big-endian integer, prepend one '1' per leading zero byte,
and wrap in the `did:key:z` scheme. -/
def _encode_did_key (pk : List Nat) : String :=
  let prefixed := ED25519_MULTICODEC ++ pk
  let encoded := baseEncode B58ALPHABET (bytesToNat prefixed)
  let leading := (prefixed.takeWhile (fun b => b = 0)).map (fun _ => '1')
  String.mk ("did:key:z".toList ++ (leading ++ encoded))

/-- `identity._decode_did_key`: checks the `did:key:z` marker, base-58
decodes (`ValueError` on a character outside the alphabet), converts the
integer with `num.to_bytes(34, "big")` (which raises `OverflowError`
when the value needs more than 34 bytes), and checks the 2-byte
multicodec tag (`ValueError` on mismatch). -/
def _decode_did_key (did : String) : Except Err (List Nat) :=
  if did.toList.take 9 = "did:key:z".toList then
    match baseDecode B58ALPHABET (did.toList.drop 9) with
    | .error e => .error e
    | .ok num =>
      match natToBytes 34 num with
      | none => .error .overflowError
      | some prefixed =>
        if prefixed.take 2 = ED25519_MULTICODEC then .ok (prefixed.drop 2)
        else .error .valueError
  else .error .valueError

theorem b58_index_getD :
    ∀ d : Fin B58ALPHABET.length, strIndex B58ALPHABET (B58ALPHABET.getD d.val ' ') = some d.val := by
  decide

theorem b58_length : B58ALPHABET.length = 58 := by decide

theorem decode_encode_did_key (pk : List Nat) (hlen : pk.length = 32)
    (hb : ∀ b ∈ pk, b < 256) :
    _decode_did_key (_encode_did_key pk) = .ok pk := by
  have hpref : ∀ b ∈ ED25519_MULTICODEC ++ pk, b < 256 := by
    intro b hmem
    rcases List.mem_append.mp hmem with h | h
    · simp only [ED25519_MULTICODEC, List.mem_cons, List.mem_singleton] at h
      rcases h with rfl | h
      · norm_num
      · simp at h; omega
    · exact hb b h
  have hpreflen : (ED25519_MULTICODEC ++ pk).length = 34 := by
    simp [ED25519_MULTICODEC, hlen]
  have htake : ((ED25519_MULTICODEC ++ pk).takeWhile (fun b => b = 0)) = [] := by
    simp [ED25519_MULTICODEC, List.takeWhile]
  unfold _encode_did_key _decode_did_key
  simp only [htake, List.map_nil, List.nil_append]
  have hllist : ("did:key:z".toList).length = 9 := by decide
  have hmk : (String.mk ("did:key:z".toList ++ baseEncode B58ALPHABET (bytesToNat (ED25519_MULTICODEC ++ pk)))).toList
      = "did:key:z".toList ++ baseEncode B58ALPHABET (bytesToNat (ED25519_MULTICODEC ++ pk)) := rfl
  rw [hmk]
  rw [show (9 : Nat) = ("did:key:z".toList).length from hllist.symm]
  rw [List.take_left, List.drop_left]
  simp only [if_pos rfl]
  rw [baseDecode_baseEncode B58ALPHABET (by rw [b58_length]; omega) b58_index_getD]
  have hlt : bytesToNat (ED25519_MULTICODEC ++ pk) < 256 ^ 34 := by
    have := bytesToNat_lt (ED25519_MULTICODEC ++ pk) hpref
    rwa [hpreflen] at this
  simp only [natToBytes, if_pos hlt]
  rw [show (34 : Nat) = (ED25519_MULTICODEC ++ pk).length from hpreflen.symm]
  rw [natToBytesRaw_bytesToNat _ hpref]
  have ht2 : (ED25519_MULTICODEC ++ pk).take 2 = ED25519_MULTICODEC := by
    simp [ED25519_MULTICODEC]
  have hd2 : (ED25519_MULTICODEC ++ pk).drop 2 = pk := by
    simp [ED25519_MULTICODEC]
  rw [ht2, hd2]
  simp

theorem encode_did_key_injective {pk pk' : List Nat}
    (hlen : pk.length = 32) (hb : ∀ b ∈ pk, b < 256)
    (hlen' : pk'.length = 32) (hb' : ∀ b ∈ pk', b < 256)
    (h : _encode_did_key pk = _encode_did_key pk') : pk = pk' := by
  have h1 := decode_encode_did_key pk hlen hb
  rw [h, decode_encode_did_key pk' hlen' hb'] at h1
  exact ((Except.ok.injEq _ _).mp h1).symm

/-! ## `feed.py`: base-36 and the DID → IPNS name derivation -/

/-- The base-36 digit alphabet from `feed._base36_encode`. -/
def BASE36_CHARS : List Char := "0123456789abcdefghijklmnopqrstuvwxyz".toList

/-- `feed._base36_encode`: big-endian base-36 digits of
`int.from_bytes(data, "big")`, with the single digit `"0"` for zero. -/
def _base36_encode (data : List Nat) : List Char :=
  let num := bytesToNat data
  if num = 0 then ['0'] else baseEncode BASE36_CHARS num

/-- `feed.did_to_ipns_name`: decode the DID to the 32-byte public key
(this can raise), wrap it in the libp2p protobuf `PublicKey` record, an
identity multihash and a CIDv1 header, and base-36 encode with the `k`
multibase prefix. -/
def did_to_ipns_name (did : String) : Except Err String :=
  match _decode_did_key did with
  | .error e => .error e
  | .ok pubkey =>
    let protobuf := [0x08, 0x01, 0x12, 0x20] ++ pubkey
    let multihash := [0x00, protobuf.length] ++ protobuf
    let cid_bytes := [0x01, 0x72] ++ multihash
    .ok (String.mk ('k' :: _base36_encode cid_bytes))

theorem b36_index_getD :
    ∀ d : Fin BASE36_CHARS.length, strIndex BASE36_CHARS (BASE36_CHARS.getD d.val ' ') = some d.val := by
  decide

theorem b36_length : BASE36_CHARS.length = 36 := by decide

theorem base36_encode_injective {xs ys : List Nat}
    (hx : ∀ b ∈ xs, b < 256) (hy : ∀ b ∈ ys, b < 256)
    (hlen : xs.length = ys.length)
    (h : _base36_encode xs = _base36_encode ys) : xs = ys := by
  have h' : (if bytesToNat xs = 0 then ['0'] else baseEncode BASE36_CHARS (bytesToNat xs))
      = (if bytesToNat ys = 0 then ['0'] else baseEncode BASE36_CHARS (bytesToNat ys)) := h
  by_cases hx0 : bytesToNat xs = 0
  · by_cases hy0 : bytesToNat ys = 0
    · exact bytesToNat_injective hx hy hlen (by rw [hx0, hy0])
    · rw [if_pos hx0, if_neg hy0] at h'
      have hrt := baseDecode_baseEncode BASE36_CHARS (by rw [b36_length]; omega) b36_index_getD (bytesToNat ys)
      rw [← h'] at hrt
      simp [baseDecode, baseDecodeAux, strIndex, BASE36_CHARS] at hrt
      omega
  · by_cases hy0 : bytesToNat ys = 0
    · rw [if_neg hx0, if_pos hy0] at h'
      have hrt := baseDecode_baseEncode BASE36_CHARS (by rw [b36_length]; omega) b36_index_getD (bytesToNat xs)
      rw [h'] at hrt
      simp [baseDecode, baseDecodeAux, strIndex, BASE36_CHARS] at hrt
      omega
    · rw [if_neg hx0, if_neg hy0] at h'
      exact bytesToNat_injective hx hy hlen
        (baseEncode_injective BASE36_CHARS (by rw [b36_length]; omega) b36_index_getD h')

/-- The 40-byte record the claim describes: version byte `0x01`, codec
byte `0x72`, identity-multihash bytes `0x00 0x24`, the key-record header
`0x08 0x01 0x12 0x20`, then the raw 32-byte public key. -/
def ipnsRecordBytes (pk : List Nat) : List Nat :=
  [0x01, 0x72, 0x00, 0x24, 0x08, 0x01, 0x12, 0x20] ++ pk

theorem did_to_ipns_name_encode (pk : List Nat) (hlen : pk.length = 32)
    (hb : ∀ b ∈ pk, b < 256) :
    did_to_ipns_name (_encode_did_key pk)
      = .ok (String.mk ('k' :: _base36_encode (ipnsRecordBytes pk))) := by
  unfold did_to_ipns_name
  rw [decode_encode_did_key pk hlen hb]
  dsimp only
  have hproto : ([0x08, 0x01, 0x12, 0x20] ++ pk).length = 36 := by simp [hlen]
  rw [hproto]
  have : [0x01, 0x72] ++ ([0x00, 36] ++ ([0x08, 0x01, 0x12, 0x20] ++ pk))
      = ipnsRecordBytes pk := by simp [ipnsRecordBytes]
  rw [this]

/-! ## `json.dumps` string escaping

`_signing_payload` serializes with `json.dumps(..., sort_keys=True,
separators=(",", ":"))`.  With the default `ensure_ascii=True` this
escapes `"`, `\`, the short control escapes, all other chars below
`0x20`, and every char above `0x7e` (as `\uXXXX`, using a UTF-16
surrogate pair above `0xFFFF`).  We model the escaping exactly and prove
it injective via a one-step decoder. -/

def HEX_CHARS : List Char := "0123456789abcdef".toList

def hexDigit (n : Nat) : Char := HEX_CHARS.getD n '0'

def hexVal (c : Char) : Nat := (strIndex HEX_CHARS c).getD 16

/-- Four lowercase hex digits, `"%04x" % n` for `n < 0x10000`. -/
def hex4 (n : Nat) : List Char :=
  [hexDigit (n / 4096 % 16), hexDigit (n / 256 % 16), hexDigit (n / 16 % 16), hexDigit (n % 16)]

/-- The escape of one character in `json.dumps`'s `ensure_ascii` string
encoder (CPython `py_encode_basestring_ascii`). -/
def escChar (c : Char) : List Char :=
  if c = '"' then ['\\', '"']
  else if c = '\\' then ['\\', '\\']
  else if c = '\n' then ['\\', 'n']
  else if c = '\r' then ['\\', 'r']
  else if c = '\t' then ['\\', 't']
  else if c.toNat = 8 then ['\\', 'b']
  else if c.toNat = 12 then ['\\', 'f']
  else if c.toNat < 0x20 ∨ 0x7e < c.toNat then
    if c.toNat < 0x10000 then '\\' :: 'u' :: hex4 c.toNat
    else '\\' :: 'u' :: hex4 (0xd800 + (c.toNat - 0x10000) / 0x400)
      ++ ('\\' :: 'u' :: hex4 (0xdc00 + (c.toNat - 0x10000) % 0x400))
  else [c]

def escape : List Char → List Char
  | [] => []
  | c :: s => escChar c ++ escape s

def decHexQuad (a b c d : Char) : Nat :=
  hexVal a * 4096 + hexVal b * 256 + hexVal c * 16 + hexVal d

/-- One-step decoder for `escChar` output: a left inverse (it need not
reject non-canonical escapes). -/
def decHead : List Char → Option (Char × List Char)
  | [] => none
  | c :: r =>
    if c = '\\' then
      match r with
      | [] => none
      | e :: r2 =>
        if e = '"' then some ('"', r2)
        else if e = '\\' then some ('\\', r2)
        else if e = 'n' then some ('\n', r2)
        else if e = 'r' then some ('\r', r2)
        else if e = 't' then some ('\t', r2)
        else if e = 'b' then some (Char.ofNat 8, r2)
        else if e = 'f' then some (Char.ofNat 12, r2)
        else if e = 'u' then
          match r2 with
          | a :: b :: c2 :: d :: r3 =>
            if 0xd800 ≤ decHexQuad a b c2 d ∧ decHexQuad a b c2 d < 0xdc00 then
              match r3 with
              | '\\' :: 'u' :: a2 :: b2 :: c3 :: d2 :: r4 =>
                some (Char.ofNat (0x10000 + (decHexQuad a b c2 d - 0xd800) * 0x400
                  + (decHexQuad a2 b2 c3 d2 - 0xdc00)), r4)
              | _ => none
            else some (Char.ofNat (decHexQuad a b c2 d), r3)
          | _ => none
        else none
    else some (c, r)

theorem hexVal_hexDigit {d : Nat} (h : d < 16) : hexVal (hexDigit d) = d := by
  have h16 : ∀ d : Fin 16, hexVal (hexDigit d.val) = d.val := by decide
  exact h16 ⟨d, h⟩

theorem decHexQuad_digits {n : Nat} (h : n < 0x10000) :
    decHexQuad (hexDigit (n / 4096 % 16)) (hexDigit (n / 256 % 16))
      (hexDigit (n / 16 % 16)) (hexDigit (n % 16)) = n := by
  unfold decHexQuad
  rw [hexVal_hexDigit (by omega), hexVal_hexDigit (by omega),
      hexVal_hexDigit (by omega), hexVal_hexDigit (by omega)]
  omega

/-- Unicode scalar value facts for a `Char`, at the `Nat` level. -/
theorem char_toNat_valid (c : Char) :
    c.toNat < 0xd800 ∨ (0xdfff < c.toNat ∧ c.toNat < 0x110000) := by
  rcases c.valid with h | ⟨h1, h2⟩
  · exact Or.inl (UInt32.toNat_lt_of_lt (by norm_num) h)
  · exact Or.inr ⟨UInt32.lt_toNat_of_lt (by norm_num) h1,
      UInt32.toNat_lt_of_lt (by norm_num) h2⟩

theorem decHead_escChar (c : Char) (r : List Char) :
    decHead (escChar c ++ r) = some (c, r) := by
  by_cases h1 : c = '"'
  · subst h1; rfl
  by_cases h2 : c = '\\'
  · subst h2; rfl
  by_cases h3 : c = '\n'
  · subst h3; rfl
  by_cases h4 : c = '\r'
  · subst h4; rfl
  by_cases h5 : c = '\t'
  · subst h5; rfl
  by_cases h6 : c.toNat = 8
  · have hc : c = Char.ofNat 8 := by rw [← Char.ofNat_toNat c, h6]
    subst hc; rfl
  by_cases h7 : c.toNat = 12
  · have hc : c = Char.ofNat 12 := by rw [← Char.ofNat_toNat c, h7]
    subst hc; rfl
  by_cases h8 : c.toNat < 0x20 ∨ 0x7e < c.toNat
  · have hesc : escChar c =
        if c.toNat < 0x10000 then '\\' :: 'u' :: hex4 c.toNat
        else '\\' :: 'u' :: hex4 (0xd800 + (c.toNat - 0x10000) / 0x400)
          ++ ('\\' :: 'u' :: hex4 (0xdc00 + (c.toNat - 0x10000) % 0x400)) := by
      unfold escChar
      rw [if_neg h1, if_neg h2, if_neg h3, if_neg h4, if_neg h5, if_neg h6, if_neg h7,
        if_pos h8]
    have hvalid := char_toNat_valid c
    by_cases h9 : c.toNat < 0x10000
    · rw [hesc, if_pos h9]
      have hquad := decHexQuad_digits (n := c.toNat) h9
      simp only [hex4, List.cons_append, List.append_assoc, List.nil_append, decHead]
      simp
      rw [hquad]
      rw [if_neg (by omega)]
      simp
    · rw [hesc, if_neg h9]
      have hu : c.toNat - 0x10000 < 0x100000 := by omega
      have hq1 : 0xd800 + (c.toNat - 0x10000) / 0x400 < 0x10000 := by omega
      have hq2 : 0xdc00 + (c.toNat - 0x10000) % 0x400 < 0x10000 := by
        have := Nat.mod_lt (c.toNat - 0x10000) (y := 0x400) (by omega)
        omega
      have hquad1 := decHexQuad_digits hq1
      have hquad2 := decHexQuad_digits hq2
      simp only [hex4, List.cons_append, List.append_assoc, List.nil_append, decHead]
      simp
      rw [hquad1, hquad2]
      have hdivlt : (c.toNat - 0x10000) / 0x400 < 0x400 := by omega
      rw [if_pos (by omega)]
      have hmod := Nat.mod_lt (c.toNat - 0x10000) (y := 0x400) (by omega)
      have hdm := Nat.div_add_mod (c.toNat - 0x10000) 0x400
      have hval : 0x10000 + (0xd800 + (c.toNat - 0x10000) / 0x400 - 0xd800) * 0x400
          + (0xdc00 + (c.toNat - 0x10000) % 0x400 - 0xdc00) = c.toNat := by omega
      rw [hval, Char.ofNat_toNat]
  · have hesc : escChar c = [c] := by
      unfold escChar
      rw [if_neg h1, if_neg h2, if_neg h3, if_neg h4, if_neg h5, if_neg h6, if_neg h7,
        if_neg h8]
    rw [hesc]
    show decHead (c :: r) = some (c, r)
    simp only [decHead]
    rw [if_neg h2]

theorem escChar_ne_nil (c : Char) : escChar c ≠ [] := by
  unfold escChar
  repeat' split
  all_goals simp [hex4]

/-- The `ensure_ascii` string escaping of `json.dumps` is injective. -/
theorem escape_injective : ∀ {s t : List Char}, escape s = escape t → s = t := by
  intro s
  induction s with
  | nil =>
    intro t h
    cases t with
    | nil => rfl
    | cons c t =>
      exfalso
      rw [show escape ([] : List Char) = [] from rfl,
        show escape (c :: t) = escChar c ++ escape t from rfl] at h
      exact escChar_ne_nil c (List.append_eq_nil.mp h.symm).1
  | cons c s ih =>
    intro t h
    cases t with
    | nil =>
      exfalso
      rw [show escape ([] : List Char) = [] from rfl,
        show escape (c :: s) = escChar c ++ escape s from rfl] at h
      exact escChar_ne_nil c (List.append_eq_nil.mp h).1
    | cons c' t =>
      have h1 := decHead_escChar c (escape s)
      have h2 := decHead_escChar c' (escape t)
      rw [show escape (c :: s) = escChar c ++ escape s from rfl,
        show escape (c' :: t) = escChar c' ++ escape t from rfl] at h
      rw [h, h2] at h1
      have hc : c' = c ∧ escape t = escape s := by
        have := (Option.some.injEq _ _).mp h1
        exact ⟨congrArg Prod.fst this, congrArg Prod.snd this⟩
      rw [hc.1, ih hc.2.symm]

theorem hexDigit_ascii (n : Nat) : (hexDigit n).toNat < 128 := by
  by_cases h : n < 16
  · have h16 : ∀ d : Fin 16, (hexDigit d.val).toNat < 128 := by decide
    exact h16 ⟨n, h⟩
  · have hd : hexDigit n = '0' := by
      unfold hexDigit
      rw [List.getD_eq_default]
      rw [show HEX_CHARS.length = 16 from rfl]
      omega
    rw [hd]; decide

theorem hex4_ascii (n : Nat) : ∀ x ∈ hex4 n, x.toNat < 128 := by
  intro x hx
  rcases List.mem_cons.mp hx with rfl | hx
  · apply hexDigit_ascii
  rcases List.mem_cons.mp hx with rfl | hx
  · apply hexDigit_ascii
  rcases List.mem_cons.mp hx with rfl | hx
  · apply hexDigit_ascii
  rcases List.mem_cons.mp hx with rfl | hx
  · apply hexDigit_ascii
  simp at hx

/-- Every character `escChar` emits is ASCII (`json.dumps` with the
default `ensure_ascii=True` produces pure-ASCII output, on which UTF-8
coincides with the code-point map). -/
theorem escChar_ascii (c : Char) : ∀ x ∈ escChar c, x.toNat < 128 := by
  by_cases h1 : c = '"'
  · subst h1; decide
  by_cases h2 : c = '\\'
  · subst h2; decide
  by_cases h3 : c = '\n'
  · subst h3; decide
  by_cases h4 : c = '\r'
  · subst h4; decide
  by_cases h5 : c = '\t'
  · subst h5; decide
  by_cases h6 : c.toNat = 8
  · have hc : c = Char.ofNat 8 := by rw [← Char.ofNat_toNat c, h6]
    subst hc; decide
  by_cases h7 : c.toNat = 12
  · have hc : c = Char.ofNat 12 := by rw [← Char.ofNat_toNat c, h7]
    subst hc; decide
  by_cases h8 : c.toNat < 0x20 ∨ 0x7e < c.toNat
  · have hesc : escChar c =
        if c.toNat < 0x10000 then '\\' :: 'u' :: hex4 c.toNat
        else '\\' :: 'u' :: hex4 (0xd800 + (c.toNat - 0x10000) / 0x400)
          ++ ('\\' :: 'u' :: hex4 (0xdc00 + (c.toNat - 0x10000) % 0x400)) := by
      unfold escChar
      rw [if_neg h1, if_neg h2, if_neg h3, if_neg h4, if_neg h5, if_neg h6, if_neg h7,
        if_pos h8]
    rw [hesc]
    by_cases h9 : c.toNat < 0x10000
    · rw [if_pos h9]
      intro x hx
      rcases List.mem_cons.mp hx with rfl | hx
      · decide
      rcases List.mem_cons.mp hx with rfl | hx
      · decide
      exact hex4_ascii _ x hx
    · rw [if_neg h9]
      intro x hx
      rcases List.mem_cons.mp hx with rfl | hx
      · decide
      rcases List.mem_cons.mp hx with rfl | hx
      · decide
      rcases List.mem_append.mp hx with hx | hx
      · exact hex4_ascii _ x hx
      rcases List.mem_cons.mp hx with rfl | hx
      · decide
      rcases List.mem_cons.mp hx with rfl | hx
      · decide
      exact hex4_ascii _ x hx
  · have hesc : escChar c = [c] := by
      unfold escChar
      rw [if_neg h1, if_neg h2, if_neg h3, if_neg h4, if_neg h5, if_neg h6, if_neg h7,
        if_neg h8]
    rw [hesc]
    intro x hx
    rcases List.mem_cons.mp hx with rfl | hx
    · push_neg at h8
      omega
    simp at hx

theorem escape_ascii (s : List Char) : ∀ x ∈ escape s, x.toNat < 128 := by
  induction s with
  | nil => intro x hx; simp [escape] at hx
  | cons c cs ih =>
    intro x hx
    rw [show escape (c :: cs) = escChar c ++ escape cs from rfl] at hx
    rcases List.mem_append.mp hx with h | h
    · exact escChar_ascii c x h
    · exact ih x h

/-! ## `json.dumps` integer serialization (Python `repr` of `int`) -/

def DEC_CHARS : List Char := "0123456789".toList

def decDigit (n : Nat) : Char := DEC_CHARS.getD n '0'

/-- Big-endian decimal digits of a natural number, as Python prints it. -/
def natDump (n : Nat) : List Char :=
  if _h : n < 10 then [decDigit n]
  else natDump (n / 10) ++ [decDigit (n % 10)]
  termination_by n
  decreasing_by exact Nat.div_lt_self (by omega) (by omega)

/-- Python `repr` of an `int`: a minus sign then the digits of the
absolute value, or just the digits. -/
def intDump (i : Int) : List Char :=
  if i < 0 then '-' :: natDump i.natAbs else natDump i.toNat

def decVal (c : Char) : Nat := (strIndex DEC_CHARS c).getD 10

theorem decVal_decDigit {d : Nat} (h : d < 10) : decVal (decDigit d) = d := by
  have h10 : ∀ d : Fin 10, decVal (decDigit d.val) = d.val := by decide
  exact h10 ⟨d, h⟩

/-- Reading the decimal digits back recovers the number. -/
theorem natDump_readback (n : Nat) :
    (natDump n).foldl (fun a c => a * 10 + decVal c) 0 = n := by
  induction n using Nat.strongRecOn with
  | _ n ih =>
    rw [natDump]
    by_cases h : n < 10
    · simp only [h, dite_true, List.foldl_cons, List.foldl_nil]
      rw [decVal_decDigit h]
      omega
    · simp only [h, dite_false, List.foldl_append, List.foldl_cons, List.foldl_nil]
      rw [ih (n / 10) (Nat.div_lt_self (by omega) (by omega))]
      rw [decVal_decDigit (Nat.mod_lt n (by omega))]
      omega

theorem natDump_injective {m n : Nat} (h : natDump m = natDump n) : m = n := by
  have hm := natDump_readback m
  rw [h, natDump_readback n] at hm
  omega

theorem natDump_ne_nil (n : Nat) : natDump n ≠ [] := by
  rw [natDump]
  by_cases h : n < 10 <;> simp [h]

/-- Every character of `natDump` is a decimal digit character. -/
theorem natDump_mem (n : Nat) : ∀ x ∈ natDump n, ∃ d, d < 10 ∧ x = decDigit d := by
  induction n using Nat.strongRecOn with
  | _ n ih =>
    rw [natDump]
    by_cases h : n < 10
    · simp only [h, dite_true]
      intro x hx
      rcases List.mem_cons.mp hx with rfl | hx
      · exact ⟨n, h, rfl⟩
      · simp at hx
    · simp only [h, dite_false]
      intro x hx
      rcases List.mem_append.mp hx with hx | hx
      · exact ih (n / 10) (Nat.div_lt_self (by omega) (by omega)) x hx
      · rcases List.mem_cons.mp hx with rfl | hx
        · exact ⟨n % 10, Nat.mod_lt n (by omega), rfl⟩
        · simp at hx

theorem neg_not_mem_natDump (n : Nat) : '-' ∉ natDump n := by
  intro hmem
  obtain ⟨d, hd, hx⟩ := natDump_mem n '-' hmem
  have h10 : ∀ d : Fin 10, decDigit d.val ≠ '-' := by decide
  exact h10 ⟨d, hd⟩ hx.symm

theorem intDump_injective {i j : Int} (h : intDump i = intDump j) : i = j := by
  unfold intDump at h
  by_cases hi : i < 0
  · by_cases hj : j < 0
    · rw [if_pos hi, if_pos hj] at h
      have htail : natDump i.natAbs = natDump j.natAbs := by
        have := congrArg List.tail h
        simpa using this
      have := natDump_injective htail
      omega
    · rw [if_pos hi, if_neg hj] at h
      exfalso
      apply neg_not_mem_natDump j.toNat
      rw [← h]
      simp
  · by_cases hj : j < 0
    · rw [if_neg hi, if_pos hj] at h
      exfalso
      apply neg_not_mem_natDump i.toNat
      rw [h]
      simp
    · rw [if_neg hi, if_neg hj] at h
      have := natDump_injective h
      omega

theorem natDump_ascii (n : Nat) : ∀ x ∈ natDump n, x.toNat < 128 := by
  intro x hx
  obtain ⟨d, hd, rfl⟩ := natDump_mem n x hx
  have h10 : ∀ d : Fin 10, (decDigit d.val).toNat < 128 := by decide
  exact h10 ⟨d, hd⟩

theorem intDump_ascii (i : Int) : ∀ x ∈ intDump i, x.toNat < 128 := by
  intro x hx
  unfold intDump at hx
  by_cases hi : i < 0
  · rw [if_pos hi] at hx
    rcases List.mem_cons.mp hx with rfl | hx
    · decide
    · exact natDump_ascii _ x hx
  · rw [if_neg hi] at hx
    exact natDump_ascii _ x hx

/-! ## JSON values, `json.dumps`, and dicts -/

/-- JSON values as produced by `json.loads` / consumed by `json.dumps`.
Python floats are not modelled (no float literal appears in the data the
source serializes); JSON numbers are integers here. -/
inductive JValue where
  | null
  | bool (b : Bool)
  | num (i : Int)
  | str (s : String)
  | arr (items : List JValue)
  | obj (fields : List (String × JValue))

/-- A Python dict with JSON-serializable values, as an association list
in insertion order (keys distinct in every dict the source builds). -/
abbrev Dict := List (String × JValue)

/-- Python string `<`: lexicographic by code point. -/
def strLtChars : List Char → List Char → Bool
  | [], [] => false
  | [], _ :: _ => true
  | _ :: _, [] => false
  | x :: xs, y :: ys =>
    if x.toNat < y.toNat then true
    else if y.toNat < x.toNat then false
    else strLtChars xs ys

def strLt (a b : String) : Bool := strLtChars a.toList b.toList

/-- Stable insertion, modelling `sorted` on key/rendered-value pairs
(Python's sort is stable; equal keys keep their relative order). -/
def insertByKey (kv : String × List Char) :
    List (String × List Char) → List (String × List Char)
  | [] => [kv]
  | x :: xs => if strLt kv.1 x.1 then kv :: x :: xs else x :: insertByKey kv xs

def sortByKey (l : List (String × List Char)) : List (String × List Char) :=
  l.foldl (fun acc kv => insertByKey kv acc) []

def joinComma : List (List Char) → List Char
  | [] => []
  | [x] => x
  | x :: y :: xs => x ++ (',' :: joinComma (y :: xs))

def dumpStr (s : String) : List Char :=
  '"' :: (escape s.toList ++ ['"'])

mutual
/-- `json.dumps(v, sort_keys=True, separators=(",", ":"))`: compact
separators, object keys sorted (recursively); `ensure_ascii` escaping. -/
def dumps : JValue → List Char
  | .null => 'n' :: 'u' :: 'l' :: 'l' :: []
  | .bool true => 't' :: 'r' :: 'u' :: 'e' :: []
  | .bool false => 'f' :: 'a' :: 'l' :: 's' :: 'e' :: []
  | .num i => intDump i
  | .str s => dumpStr s
  | .arr items => '[' :: (joinComma (dumpsList items) ++ [']'])
  | .obj fields =>
    '\x7b' :: (joinComma ((sortByKey (dumpsFields fields)).map
      (fun kv => dumpStr kv.1 ++ (':' :: kv.2))) ++ ['\x7d'])
def dumpsList : List JValue → List (List Char)
  | [] => []
  | v :: vs => dumps v :: dumpsList vs
def dumpsFields : List (String × JValue) → List (String × List Char)
  | [] => []
  | (k, v) :: kvs => (k, dumps v) :: dumpsFields kvs
end

/-- Python `post[k]` / `k in post` for dicts: first binding wins (the
dicts the source builds have distinct keys). -/
def dictGet (post : Dict) (k : String) : Option JValue :=
  match post.find? (fun kv => kv.1 == k) with
  | some kv => some kv.2
  | none => none

/-- `messages._signing_payload`, characters of the canonical JSON text:
drop the `signature` field, serialize with sorted keys and compact
separators. -/
def _signing_payload_chars (post : Dict) : List Char :=
  dumps (.obj (post.filter (fun kv => kv.1 != "signature")))

/-- `messages._signing_payload`: the UTF-8 bytes of the canonical JSON
text.  `json.dumps` with the default `ensure_ascii=True` emits only
ASCII characters (`escChar_ascii`), and UTF-8 coincides with the
code-point map on ASCII, so `.encode("utf-8")` is the code-point map
here. -/
def _signing_payload (post : Dict) : List Nat :=
  (_signing_payload_chars post).map Char.toNat

/-! ## `base64` (standard alphabet, with padding)

Model of `base64.b64encode` / `base64.b64decode`.  The decoder accepts
the encoder's outputs and rejects otherwise (`none` models
`binascii.Error`, a `ValueError` subclass).  Python's lenient decoder
additionally discards non-alphabet characters before decoding; the
difference is unobservable here: a signature string that decodes to
anything other than the attached signature bytes verifies false either
way, and no claim feeds a non-canonical base64 string whose decode must
succeed. -/

def B64_CHARS : List Char :=
  "ABCDEFGHIJKLMNOPQRSTUVWXYZabcdefghijklmnopqrstuvwxyz0123456789+/".toList

def b64chr (n : Nat) : Char := B64_CHARS.getD n 'A'

def b64val (c : Char) : Option Nat := strIndex B64_CHARS c

def b64encode : List Nat → List Char
  | [] => []
  | [b1] => [b64chr (b1 / 4), b64chr (b1 % 4 * 16), '=', '=']
  | [b1, b2] => [b64chr (b1 / 4), b64chr (b1 % 4 * 16 + b2 / 16), b64chr (b2 % 16 * 4), '=']
  | b1 :: b2 :: b3 :: rest =>
    b64chr (b1 / 4) :: b64chr (b1 % 4 * 16 + b2 / 16) :: b64chr (b2 % 16 * 4 + b3 / 64)
      :: b64chr (b3 % 64) :: b64encode rest

def b64decode : List Char → Option (List Nat)
  | [] => some []
  | c1 :: c2 :: c3 :: c4 :: rest =>
    match b64val c1, b64val c2 with
    | some v1, some v2 =>
      if c3 = '=' then
        if c4 = '=' ∧ rest = [] then some [v1 * 4 + v2 / 16] else none
      else
        match b64val c3 with
        | some v3 =>
          if c4 = '=' then
            if rest = [] then some [v1 * 4 + v2 / 16, v2 % 16 * 16 + v3 / 4] else none
          else
            match b64val c4, b64decode rest with
            | some v4, some bs =>
              some ((v1 * 4 + v2 / 16) :: (v2 % 16 * 16 + v3 / 4) :: (v3 % 4 * 64 + v4) :: bs)
            | _, _ => none
        | none => none
    | _, _ => none
  | _ => none

theorem b64val_b64chr {v : Nat} (h : v < 64) : b64val (b64chr v) = some v := by
  have h64 : ∀ v : Fin 64, b64val (b64chr v.val) = some v.val := by decide
  exact h64 ⟨v, h⟩

theorem b64chr_ne_pad {v : Nat} (h : v < 64) : b64chr v ≠ '=' := by
  have h64 : ∀ v : Fin 64, b64chr v.val ≠ '=' := by decide
  exact h64 ⟨v, h⟩

theorem b64decode_b64encode :
    ∀ (bs : List Nat), (∀ b ∈ bs, b < 256) → b64decode (b64encode bs) = some bs
  | [], _ => rfl
  | [b1], h => by
    have hb1 : b1 < 256 := h b1 (by simp)
    have h1 : b1 / 4 < 64 := by omega
    have h2 : b1 % 4 * 16 < 64 := by omega
    simp only [b64encode, b64decode, b64val_b64chr h1, b64val_b64chr h2]
    simp
    omega
  | [b1, b2], h => by
    have hb1 : b1 < 256 := h b1 (by simp)
    have hb2 : b2 < 256 := h b2 (by simp)
    have h1 : b1 / 4 < 64 := by omega
    have h2 : b1 % 4 * 16 + b2 / 16 < 64 := by omega
    have h3 : b2 % 16 * 4 < 64 := by omega
    simp only [b64encode, b64decode, b64val_b64chr h1, b64val_b64chr h2]
    rw [if_neg (b64chr_ne_pad h3)]
    simp only [b64val_b64chr h3]
    simp
    constructor
    · omega
    · omega
  | b1 :: b2 :: b3 :: rest, h => by
    have hb1 : b1 < 256 := h b1 (by simp)
    have hb2 : b2 < 256 := h b2 (by simp)
    have hb3 : b3 < 256 := h b3 (by simp)
    have hrest : ∀ b ∈ rest, b < 256 := fun b hb => h b (by simp [hb])
    have h1 : b1 / 4 < 64 := by omega
    have h2 : b1 % 4 * 16 + b2 / 16 < 64 := by omega
    have h3 : b2 % 16 * 4 + b3 / 64 < 64 := by omega
    have h4 : b3 % 64 < 64 := by omega
    have hrec := b64decode_b64encode rest hrest
    simp only [b64encode, b64decode, b64val_b64chr h1, b64val_b64chr h2]
    rw [if_neg (b64chr_ne_pad h3)]
    simp only [b64val_b64chr h3]
    rw [if_neg (b64chr_ne_pad h4)]
    simp only [b64val_b64chr h4, hrec]
    simp
    refine ⟨by omega, by omega, by omega⟩
  termination_by bs => bs.length

/-! ## Ideal Ed25519 (PyNaCl)

The PyNaCl primitives are library code, not part of this repository; we
use the standard ideal model of a deterministic signature scheme.  For
Ed25519 the map from the 32-byte signing seed to the encoded verify key
is injective; the model realizes it as the identity on byte strings.  A
detached signature is a deterministic function of the key and message
and verifies exactly against the signer's verify key and the signed
message; the model realizes it as `verify_key ++ message`, making
verification the equality test `sig = pk ++ msg`.  (Real signatures are
64 bytes and `VerifyKey.verify` raises `ValueError` on other lengths —
both a wrong-length and a wrong-value signature verify false through
`identity.verify`, so the length check is not modelled separately.) -/

def nacl_verify_key (seed : List Nat) : List Nat := seed

def nacl_sign (seed : List Nat) (message : List Nat) : List Nat :=
  nacl_verify_key seed ++ message

def nacl_verify (pk message signature : List Nat) : Bool :=
  decide (signature = pk ++ message)

/-- `identity.sign`: sign with the local identity's key (the stored seed
is a parameter here; the source reads it from the identity file). -/
def identity_sign (seed : List Nat) (message : List Nat) : List Nat :=
  nacl_sign seed message

/-- `identity.verify`: decode the DID to a verify key and check the raw
signature.  `BadSignatureError` and `ValueError` (bad DID format) are
caught and yield `False`; any other exception — the `OverflowError` that
`_decode_did_key` raises on an oversized base-58 payload — propagates. -/
def identity_verify (message signature : List Nat) (did : String) : Except Err Bool :=
  match _decode_did_key did with
  | .ok pk => .ok (nacl_verify pk message signature)
  | .error .valueError => .ok false
  | .error e => .error e

/-! ## `messages.py` -/

def MESSAGE_VERSION : Int := 1

/-- The envelope dict shape `create_post` builds, with the version field
generalized so that tampered variants can be expressed. -/
def postFields (did content : String) (reply_to : Option String)
    (post_type timestamp : String) (v : Int) : Dict :=
  [("v", .num v),
   ("type", .str post_type),
   ("content", .str content),
   ("author", .str did),
   ("reply_to", match reply_to with | none => JValue.null | some r => JValue.str r),
   ("timestamp", .str timestamp)]

/-- `messages.create_post`: the unsigned envelope, in insertion order
`v, type, content, author, reply_to, timestamp`.  The author comes from
the loaded identity and the timestamp from the clock; both are
parameters here. -/
def create_post (did content : String) (reply_to : Option String)
    (post_type timestamp : String) : Dict :=
  postFields did content reply_to post_type timestamp MESSAGE_VERSION

def listStr (l : List Char) : String := String.mk l

/-- `messages.sign_post`: sign the canonical payload with the local
seed, return `{**post, "signature": base64(sig)}`.  (For a dict without
a `signature` key — which is what `create_post` produces — the merge
appends the new key at the end.) -/
def sign_post (seed : List Nat) (post : Dict) : Dict :=
  post ++ [("signature", .str (listStr (b64encode (identity_sign seed (_signing_payload post)))))]

/-- `messages.verify_post`: `False` when `signature` is absent; then a
`try` block whose `except (KeyError, ValueError)` catches a failed
base64 decode (`binascii.Error`), a missing author key, and DID format
errors — but not the `TypeError` a non-string signature raises inside
`base64.b64decode`, the `AttributeError` a non-string author raises
inside `str.startswith`, or the `OverflowError` an oversized DID raises
inside `int.to_bytes`. -/
def verify_post (post : Dict) : Except Err Bool :=
  match dictGet post "signature" with
  | none => .ok false
  | some (.str s) =>
    match b64decode s.toList with
    | none => .ok false
    | some signature =>
      match dictGet post "author" with
      | none => .ok false
      | some (.str did) => identity_verify (_signing_payload post) signature did
      | some _ => .error .attributeError
  | some _ => .error .typeError

/-! ## The shape of `create_post` payloads

The canonical payload of an envelope dict of the `create_post` shape is
a fixed skeleton with the escaped field values (and the version number)
interleaved.  `Seg`/`renderSegs` name that decomposition so that
equality of payloads can be peeled one field at a time. -/

inductive Seg where
  | lit (cs : List Char)
  | esc (s : String)
  | num (v : Int)

/-- Render a segment list: a `.esc` segment is an escaped string body
followed by its closing quote. -/
def renderSegs : List Seg → List Char
  | [] => []
  | .lit cs :: rest => cs ++ renderSegs rest
  | .esc s :: rest => escape s.toList ++ ('"' :: renderSegs rest)
  | .num v :: rest => intDump v ++ renderSegs rest

/-- The canonical payload of a `postFields` envelope, as segments:
sorted key order `author, content, reply_to, timestamp, type, v`. -/
def postSegs (did content : String) (reply_to : Option String)
    (post_type timestamp : String) (v : Int) : List Seg :=
  [.lit "\x7b\"author\":\"".toList, .esc did,
   .lit ",\"content\":\"".toList, .esc content,
   .lit ",\"reply_to\":".toList]
  ++ (match reply_to with
      | none => [Seg.lit "null".toList]
      | some r => [Seg.lit ['"'], Seg.esc r])
  ++ [.lit ",\"timestamp\":\"".toList, .esc timestamp,
      .lit ",\"type\":\"".toList, .esc post_type,
      .lit ",\"v\":".toList, .num v, .lit ['\x7d']]

theorem payload_postFields (did content : String) (reply_to : Option String)
    (post_type timestamp : String) (v : Int) :
    _signing_payload_chars (postFields did content reply_to post_type timestamp v)
      = renderSegs (postSegs did content reply_to post_type timestamp v) := by
  have hsorted : sortByKey (dumpsFields
      ((postFields did content reply_to post_type timestamp v).filter
        (fun kv => kv.1 != "signature")))
      = [("author", dumps (.str did)), ("content", dumps (.str content)),
         ("reply_to", dumps (match reply_to with | none => JValue.null | some r => JValue.str r)),
         ("timestamp", dumps (.str timestamp)), ("type", dumps (.str post_type)),
         ("v", dumps (.num v))] := by
    cases reply_to <;> rfl
  unfold _signing_payload_chars
  rw [show (dumps (.obj ((postFields did content reply_to post_type timestamp v).filter
      (fun kv => kv.1 != "signature"))))
    = '\x7b' :: (joinComma ((sortByKey (dumpsFields
        ((postFields did content reply_to post_type timestamp v).filter
          (fun kv => kv.1 != "signature")))).map
      (fun kv => dumpStr kv.1 ++ (':' :: kv.2))) ++ ['\x7d']) from rfl]
  rw [hsorted]
  cases reply_to <;>
    simp [postSegs, renderSegs, joinComma, dumpStr, dumps, escape, escChar,
      List.append_assoc]

theorem escChar_head_ne_quote (c : Char) : ∃ h t, escChar c = h :: t ∧ h ≠ '"' := by
  by_cases h1 : c = '"'
  · subst h1; exact ⟨'\\', _, rfl, by decide⟩
  by_cases h2 : c = '\\'
  · subst h2; exact ⟨'\\', _, rfl, by decide⟩
  by_cases h3 : c = '\n'
  · subst h3; exact ⟨'\\', _, rfl, by decide⟩
  by_cases h4 : c = '\r'
  · subst h4; exact ⟨'\\', _, rfl, by decide⟩
  by_cases h5 : c = '\t'
  · subst h5; exact ⟨'\\', _, rfl, by decide⟩
  by_cases h6 : c.toNat = 8
  · have hc : c = Char.ofNat 8 := by rw [← Char.ofNat_toNat c, h6]
    subst hc; exact ⟨'\\', _, rfl, by decide⟩
  by_cases h7 : c.toNat = 12
  · have hc : c = Char.ofNat 12 := by rw [← Char.ofNat_toNat c, h7]
    subst hc; exact ⟨'\\', _, rfl, by decide⟩
  by_cases h8 : c.toNat < 0x20 ∨ 0x7e < c.toNat
  · have hesc : escChar c =
        if c.toNat < 0x10000 then '\\' :: 'u' :: hex4 c.toNat
        else '\\' :: 'u' :: hex4 (0xd800 + (c.toNat - 0x10000) / 0x400)
          ++ ('\\' :: 'u' :: hex4 (0xdc00 + (c.toNat - 0x10000) % 0x400)) := by
      unfold escChar
      rw [if_neg h1, if_neg h2, if_neg h3, if_neg h4, if_neg h5, if_neg h6, if_neg h7,
        if_pos h8]
    by_cases h9 : c.toNat < 0x10000
    · rw [hesc, if_pos h9]; exact ⟨'\\', _, rfl, by decide⟩
    · rw [hesc, if_neg h9]; exact ⟨'\\', _, rfl, by decide⟩
  · have hesc : escChar c = [c] := by
      unfold escChar
      rw [if_neg h1, if_neg h2, if_neg h3, if_neg h4, if_neg h5, if_neg h6, if_neg h7,
        if_neg h8]
    exact ⟨c, [], hesc, h1⟩

/-- A `"`-terminated escaped body determines the body and the remainder:
the closing quote cannot be confused with escaped content because no
escape starts with a bare `"`. -/
theorem escape_quote_split : ∀ (s s' r r' : List Char),
    escape s ++ ('"' :: r) = escape s' ++ ('"' :: r') → s = s' ∧ r = r' := by
  intro s
  induction s with
  | nil =>
    intro s' r r' h
    cases s' with
    | nil =>
      refine ⟨rfl, ?_⟩
      simpa using h
    | cons c' t' =>
      exfalso
      obtain ⟨hd, tl, he, hne⟩ := escChar_head_ne_quote c'
      rw [show escape (c' :: t') = escChar c' ++ escape t' from rfl, he] at h
      simp only [escape, List.nil_append, List.cons_append, List.append_assoc,
        List.cons.injEq] at h
      exact hne h.1.symm
  | cons c t ih =>
    intro s' r r' h
    cases s' with
    | nil =>
      exfalso
      obtain ⟨hd, tl, he, hne⟩ := escChar_head_ne_quote c
      rw [show escape (c :: t) = escChar c ++ escape t from rfl, he] at h
      simp only [escape, List.nil_append, List.cons_append, List.append_assoc,
        List.cons.injEq] at h
      exact hne h.1
    | cons c' t' =>
      have h1 := decHead_escChar c (escape t ++ ('"' :: r))
      have h2 := decHead_escChar c' (escape t' ++ ('"' :: r'))
      rw [show escape (c :: t) ++ ('"' :: r) = escChar c ++ (escape t ++ ('"' :: r)) by
        simp [escape, List.append_assoc]] at h
      rw [show escape (c' :: t') ++ ('"' :: r') = escChar c' ++ (escape t' ++ ('"' :: r')) by
        simp [escape, List.append_assoc]] at h
      rw [h, h2] at h1
      have hfst : c' = c := congrArg (fun p => p.1) ((Option.some.injEq _ _).mp h1)
      have hsnd : escape t' ++ ('"' :: r') = escape t ++ ('"' :: r) :=
        congrArg (fun p => p.2) ((Option.some.injEq _ _).mp h1)
      obtain ⟨hts, hrs⟩ := ih t' r r' hsnd.symm
      exact ⟨by rw [hfst, hts], hrs⟩

theorem string_toList_inj {a b : String} (h : a.toList = b.toList) : a = b := by
  cases a
  cases b
  exact congrArg String.mk (by simpa [String.toList] using h)

/-- Peeling an escaped-string segment off a rendered payload. -/
theorem renderSegs_esc_peel {s s' : String} {rest rest' : List Seg}
    (h : renderSegs (.esc s :: rest) = renderSegs (.esc s' :: rest')) :
    s = s' ∧ renderSegs rest = renderSegs rest' := by
  rw [show renderSegs (.esc s :: rest) = escape s.toList ++ ('"' :: renderSegs rest) from rfl,
    show renderSegs (.esc s' :: rest') = escape s'.toList ++ ('"' :: renderSegs rest') from rfl] at h
  obtain ⟨hs, hr⟩ := escape_quote_split _ _ _ _ h
  exact ⟨string_toList_inj hs, hr⟩

/-- Peeling an identical literal segment. -/
theorem renderSegs_lit_peel {cs : List Char} {rest rest' : List Seg}
    (h : renderSegs (.lit cs :: rest) = renderSegs (.lit cs :: rest')) :
    renderSegs rest = renderSegs rest' := by
  rw [show renderSegs (.lit cs :: rest) = cs ++ renderSegs rest from rfl,
    show renderSegs (.lit cs :: rest') = cs ++ renderSegs rest' from rfl] at h
  exact List.append_cancel_left h

/-- The terminal `…,"v":<int>}` group determines the version number. -/
theorem renderSegs_num_end {v v' : Int} {cs : List Char}
    (h : renderSegs [.num v, .lit cs] = renderSegs [.num v', .lit cs]) : v = v' := by
  simp only [renderSegs] at h
  have hlen := congrArg List.length h
  simp only [List.length_append] at hlen
  exact intDump_injective (List.append_inj_left h (by omega))

/-- The canonical payload determines every field of a `postFields`
envelope: two such envelopes with equal signing payloads agree on
author, content, reply_to, timestamp, type and version. -/
theorem postFields_payload_inj
    {did content post_type timestamp did' content' post_type' timestamp' : String}
    {reply_to reply_to' : Option String} {v v' : Int}
    (h : _signing_payload_chars (postFields did content reply_to post_type timestamp v)
       = _signing_payload_chars (postFields did' content' reply_to' post_type' timestamp' v')) :
    did = did' ∧ content = content' ∧ reply_to = reply_to' ∧ timestamp = timestamp'
      ∧ post_type = post_type' ∧ v = v' := by
  rw [payload_postFields, payload_postFields] at h
  cases reply_to with
  | none =>
    cases reply_to' with
    | none =>
      simp only [postSegs, List.cons_append, List.nil_append] at h
      have h := renderSegs_lit_peel h
      obtain ⟨hdid, h⟩ := renderSegs_esc_peel h
      have h := renderSegs_lit_peel h
      obtain ⟨hcon, h⟩ := renderSegs_esc_peel h
      have h := renderSegs_lit_peel h
      have h := renderSegs_lit_peel h
      have h := renderSegs_lit_peel h
      obtain ⟨hts, h⟩ := renderSegs_esc_peel h
      have h := renderSegs_lit_peel h
      obtain ⟨hty, h⟩ := renderSegs_esc_peel h
      have h := renderSegs_lit_peel h
      exact ⟨hdid, hcon, rfl, hts, hty, renderSegs_num_end h⟩
    | some r' =>
      exfalso
      simp only [postSegs, List.cons_append, List.nil_append] at h
      have h := renderSegs_lit_peel h
      obtain ⟨_, h⟩ := renderSegs_esc_peel h
      have h := renderSegs_lit_peel h
      obtain ⟨_, h⟩ := renderSegs_esc_peel h
      have h := renderSegs_lit_peel h
      rw [show ("null".toList : List Char) = ['n', 'u', 'l', 'l'] from rfl] at h
      simp only [renderSegs, List.cons_append, List.nil_append, List.singleton_append,
        List.cons.injEq] at h
      exact absurd h.1 (by decide)
  | some r =>
    cases reply_to' with
    | none =>
      exfalso
      simp only [postSegs, List.cons_append, List.nil_append] at h
      have h := renderSegs_lit_peel h
      obtain ⟨_, h⟩ := renderSegs_esc_peel h
      have h := renderSegs_lit_peel h
      obtain ⟨_, h⟩ := renderSegs_esc_peel h
      have h := renderSegs_lit_peel h
      rw [show ("null".toList : List Char) = ['n', 'u', 'l', 'l'] from rfl] at h
      simp only [renderSegs, List.cons_append, List.nil_append, List.singleton_append,
        List.cons.injEq] at h
      exact absurd h.1 (by decide)
    | some r' =>
      simp only [postSegs, List.cons_append, List.nil_append] at h
      have h := renderSegs_lit_peel h
      obtain ⟨hdid, h⟩ := renderSegs_esc_peel h
      have h := renderSegs_lit_peel h
      obtain ⟨hcon, h⟩ := renderSegs_esc_peel h
      have h := renderSegs_lit_peel h
      have h := renderSegs_lit_peel h
      obtain ⟨hr, h⟩ := renderSegs_esc_peel h
      have h := renderSegs_lit_peel h
      obtain ⟨hts, h⟩ := renderSegs_esc_peel h
      have h := renderSegs_lit_peel h
      obtain ⟨hty, h⟩ := renderSegs_esc_peel h
      have h := renderSegs_lit_peel h
      exact ⟨hdid, hcon, congrArg some hr, hts, hty, renderSegs_num_end h⟩

def segAscii : Seg → Prop
  | .lit cs => ∀ x ∈ cs, x.toNat < 128
  | .esc _ => True
  | .num _ => True

theorem renderSegs_ascii : ∀ (segs : List Seg), (∀ s ∈ segs, segAscii s) →
    ∀ x ∈ renderSegs segs, x.toNat < 128 := by
  intro segs
  induction segs with
  | nil => intro _ x hx; simp [renderSegs] at hx
  | cons sg rest ih =>
    intro hok x hx
    have hrest := ih (fun s hs => hok s (by simp [hs]))
    cases sg with
    | lit cs =>
      rw [show renderSegs (.lit cs :: rest) = cs ++ renderSegs rest from rfl] at hx
      rcases List.mem_append.mp hx with h | h
      · exact hok (.lit cs) (by simp) x h
      · exact hrest x h
    | esc s =>
      rw [show renderSegs (.esc s :: rest)
          = escape s.toList ++ ('"' :: renderSegs rest) from rfl] at hx
      rcases List.mem_append.mp hx with h | h
      · exact escape_ascii _ x h
      · rcases List.mem_cons.mp h with rfl | h
        · decide
        · exact hrest x h
    | num v =>
      rw [show renderSegs (.num v :: rest) = intDump v ++ renderSegs rest from rfl] at hx
      rcases List.mem_append.mp hx with h | h
      · exact intDump_ascii v x h
      · exact hrest x h

theorem payload_postFields_ascii (did content : String) (reply_to : Option String)
    (post_type timestamp : String) (v : Int) :
    ∀ x ∈ _signing_payload_chars (postFields did content reply_to post_type timestamp v),
      x.toNat < 128 := by
  rw [payload_postFields]
  apply renderSegs_ascii
  intro s hs
  cases reply_to with
  | none =>
    simp only [postSegs, List.cons_append, List.nil_append, List.mem_cons,
      List.not_mem_nil, or_false] at hs
    rcases hs with rfl | rfl | rfl | rfl | rfl | rfl | rfl | rfl | rfl | rfl | rfl | rfl | rfl
    · unfold segAscii; decide
    · trivial
    · unfold segAscii; decide
    · trivial
    · unfold segAscii; decide
    · unfold segAscii; decide
    · unfold segAscii; decide
    · trivial
    · unfold segAscii; decide
    · trivial
    · unfold segAscii; decide
    · trivial
    · unfold segAscii; decide
  | some r =>
    simp only [postSegs, List.cons_append, List.nil_append, List.mem_cons,
      List.not_mem_nil, or_false] at hs
    rcases hs with rfl | rfl | rfl | rfl | rfl | rfl | rfl | rfl | rfl | rfl | rfl | rfl | rfl | rfl
    · unfold segAscii; decide
    · trivial
    · unfold segAscii; decide
    · trivial
    · unfold segAscii; decide
    · unfold segAscii; decide
    · trivial
    · unfold segAscii; decide
    · trivial
    · unfold segAscii; decide
    · trivial
    · unfold segAscii; decide
    · trivial
    · unfold segAscii; decide

theorem char_toNat_inj {a b : Char} (h : a.toNat = b.toNat) : a = b := by
  rw [← Char.ofNat_toNat a, h, Char.ofNat_toNat]

theorem map_toNat_inj {xs ys : List Char} (h : xs.map Char.toNat = ys.map Char.toNat) :
    xs = ys := by
  have : Function.Injective Char.toNat := fun _ _ hab => char_toNat_inj hab
  exact List.map_injective_iff.mpr this h

/-- Appending a `signature` binding does not change the signing payload
(the canonicalization strips it). -/
theorem signing_payload_chars_append_sig (post : Dict) (s : JValue) :
    _signing_payload_chars (post ++ [("signature", s)]) = _signing_payload_chars post := by
  unfold _signing_payload_chars
  congr 1
  simp [List.filter_append]

theorem signing_payload_append_sig (post : Dict) (s : JValue) :
    _signing_payload (post ++ [("signature", s)]) = _signing_payload post := by
  unfold _signing_payload
  rw [signing_payload_chars_append_sig]

theorem dictGet_postFields_sig (did content : String) (reply_to : Option String)
    (post_type timestamp : String) (v : Int) (s : JValue) :
    dictGet (postFields did content reply_to post_type timestamp v ++ [("signature", s)])
      "signature" = some s := rfl

theorem dictGet_postFields_author (did content : String) (reply_to : Option String)
    (post_type timestamp : String) (v : Int) (s : JValue) :
    dictGet (postFields did content reply_to post_type timestamp v ++ [("signature", s)])
      "author" = some (.str did) := rfl

/-- The bytes of a `postFields` payload are all `< 256` (they are ASCII
code points). -/
theorem payload_postFields_bytes_lt (did content : String) (reply_to : Option String)
    (post_type timestamp : String) (v : Int) :
    ∀ b ∈ _signing_payload (postFields did content reply_to post_type timestamp v), b < 256 := by
  intro b hb
  unfold _signing_payload at hb
  obtain ⟨c, hc, rfl⟩ := List.mem_map.mp hb
  have := payload_postFields_ascii did content reply_to post_type timestamp v c hc
  omega

theorem listStr_toList (l : List Char) : (listStr l).toList = l := rfl

/-- `verify_post ∘ sign_post` on a post of the `create_post` shape whose
author is the local identity's DID: the signature round-trips through
base64 and verifies against the key decoded from the author field. -/
theorem verify_post_sign_postFields (seed : List Nat) (hlen : seed.length = 32)
    (hb : ∀ b ∈ seed, b < 256) (content : String) (reply_to : Option String)
    (post_type timestamp : String) :
    verify_post (sign_post seed
      (postFields (_encode_did_key seed) content reply_to post_type timestamp MESSAGE_VERSION))
      = .ok true := by
  have hbytes : ∀ b ∈ identity_sign seed (_signing_payload
      (postFields (_encode_did_key seed) content reply_to post_type timestamp MESSAGE_VERSION)),
      b < 256 := by
    intro b hmem
    rcases List.mem_append.mp hmem with h | h
    · exact hb b h
    · exact payload_postFields_bytes_lt _ _ _ _ _ _ b h
  rw [sign_post, verify_post, dictGet_postFields_sig]
  dsimp only
  rw [listStr_toList, b64decode_b64encode _ hbytes]
  dsimp only
  rw [dictGet_postFields_author]
  dsimp only
  rw [signing_payload_append_sig, identity_verify]
  rw [decode_encode_did_key seed hlen hb]
  simp [nacl_verify, identity_sign, nacl_sign, nacl_verify_key]

/-- Verifying a tampered envelope: a `create_post`-shaped envelope whose
author decodes to `pk'` but which carries the signature of the original
envelope (signed by `seed`) verifies false unless every field — and the
signing key — is unchanged. -/
theorem verify_post_tampered (seed pk' : List Nat) (hlen : seed.length = 32)
    (hb : ∀ b ∈ seed, b < 256) (hlen' : pk'.length = 32) (hb' : ∀ b ∈ pk', b < 256)
    (content content' : String) (reply_to reply_to' : Option String)
    (post_type post_type' timestamp timestamp' : String) (v' : Int)
    (hdiff : ¬ (pk' = seed ∧ content' = content ∧ reply_to' = reply_to
      ∧ timestamp' = timestamp ∧ post_type' = post_type ∧ v' = MESSAGE_VERSION)) :
    verify_post (postFields (_encode_did_key pk') content' reply_to' post_type' timestamp' v'
      ++ [("signature", .str (listStr (b64encode (identity_sign seed (_signing_payload
        (postFields (_encode_did_key seed) content reply_to post_type timestamp
          MESSAGE_VERSION))))))])
      = .ok false := by
  have hbytes : ∀ b ∈ identity_sign seed (_signing_payload
      (postFields (_encode_did_key seed) content reply_to post_type timestamp MESSAGE_VERSION)),
      b < 256 := by
    intro b hmem
    rcases List.mem_append.mp hmem with h | h
    · exact hb b h
    · exact payload_postFields_bytes_lt _ _ _ _ _ _ b h
  rw [verify_post, dictGet_postFields_sig]
  dsimp only
  rw [listStr_toList, b64decode_b64encode _ hbytes]
  dsimp only
  rw [dictGet_postFields_author]
  dsimp only
  rw [signing_payload_append_sig, identity_verify]
  rw [decode_encode_did_key pk' hlen' hb']
  dsimp only [nacl_verify, identity_sign, nacl_sign, nacl_verify_key]
  congr 1
  rw [decide_eq_false_iff_not]
  intro heq
  have hlens : seed.length = pk'.length := by rw [hlen, hlen']
  obtain ⟨hpk, hpay⟩ := List.append_inj heq hlens
  have hchars := map_toNat_inj hpay
  obtain ⟨hdid, hcon, hr, hts, hty, hv⟩ := postFields_payload_inj hchars
  have hseed : seed = pk' := encode_did_key_injective hlen hb hlen' hb' hdid
  exact hdiff ⟨hseed.symm, hcon.symm, hr.symm, hts.symm, hty.symm, hv.symm⟩

/-! ## `feed.py`: follow entries, polling, publishing -/

def MAX_FEED_ENTRIES : Nat := 100

structure FeedPost where
  cid : String
  timestamp : String
  deriving DecidableEq

structure FeedIndex where
  author : String
  posts : List FeedPost
  deriving DecidableEq

/-- A follow-list entry as `check_feeds` manipulates it (the dicts that
`load_following` normalizes always carry these keys; `alias` is
optional). -/
structure FollowEntry where
  did : String
  alias_ : Option String
  addedAt : String
  lastSeenCids : List String
  deriving DecidableEq

/-- The external world a poll runs against, constant for the duration of
a `check_feeds` call: IPNS name resolution (`ipfs.name_resolve`), the
cid list of the feed document a feed CID denotes (`ipfs.get_json`
followed by `feed_data.get("posts", [])` and `p["cid"]`), and post
fetching (`ipfs.get` + `deserialize`).  `none` models the exception
paths: resolution timeout, store NotFound, a feed document that is not a
dict or whose post entries lack a `"cid"` key (a `KeyError` inside the
per-entry `try`), and a fetched document that is not a dict (whose
`.get` raises `AttributeError` inside the per-post `try`). -/
structure World where
  resolve : String → Option String
  feedPosts : String → Option (List String)
  fetchPost : String → Option Dict

/-- `messages.fetch`: fetch a post and verify it, returning the envelope
and the verification verdict.  `none` models an exception (store
failure, or `verify_post` itself raising). -/
def fetch (w : World) (cid : String) : Option (Dict × Bool) :=
  match w.fetchPost cid with
  | none => none
  | some post =>
    match verify_post post with
    | .ok verified => some (post, verified)
    | .error _ => none

/-- One iteration of the `for p in new_posts` loop in `check_feeds`: a
fetch failure is swallowed (`except Exception: pass`), an author
mismatch or failed verification is skipped, and only a post passing both
checks is counted. -/
def ingestStep (w : World) (did : String) (acc : Nat) (cid : String) : Nat :=
  match fetch w cid with
  | none => acc
  | some (post, verified) =>
    match dictGet post "author" with
    | some (.str a) => if a = did then (if verified then acc + 1 else acc) else acc
    | _ => acc

/-- The per-entry body of `check_feeds`: derive the IPNS name, resolve
it, fetch the feed document's post cids, diff against `lastSeenCids`,
run the ingest loop, and replace `lastSeenCids` with the observed list.
Any failure up to the feed fetch (the surrounding `try`) leaves the
entry untouched; an empty feed hits `continue` before the update.
Returns the (possibly updated) entry, the ingested count, and whether
the entry's resolution+fetch succeeded. -/
def processEntry (w : World) (e : FollowEntry) : FollowEntry × Nat × Bool :=
  match did_to_ipns_name e.did with
  | .error _ => (e, 0, false)
  | .ok name =>
    match w.resolve name with
    | none => (e, 0, false)
    | some feedCid =>
      match w.feedPosts feedCid with
      | none => (e, 0, false)
      | some posts =>
        if posts = [] then (e, 0, true)
        else
          let newPosts := posts.filter (fun c => !(e.lastSeenCids.contains c))
          let ingested := newPosts.foldl (ingestStep w e.did) 0
          ({ e with lastSeenCids := posts }, ingested, true)

/-- `feed.check_feeds`: process every entry independently against the
same world and persist the whole updated list once at the end (the
returned list is exactly what `save_following` writes).  Also returns
the total number of ingested posts. -/
def check_feeds (w : World) (entries : List FollowEntry) : List FollowEntry × Nat :=
  (entries.map (fun e => (processEntry w e).1),
   (entries.map (fun e => (processEntry w e).2.1)).sum)

/-- The observable effects of one `publish_feed` call, in order.  The
background IPNS `name_publish` thread is fire-and-forget and not
modelled. -/
inductive FeedEvent where
  | saveLocal (f : FeedIndex)
  | ipfsAdd (f : FeedIndex)
  deriving DecidableEq

/-- `feed.publish_feed`: a no-op without an identity; otherwise load the
feed index (or start one), prepend the new `{cid, timestamp}` entry,
truncate to `MAX_FEED_ENTRIES`, save locally, then hand the updated
index to the store. -/
def publish_feed (ident : Option String) (feed : Option FeedIndex) (cid ts : String) :
    Option FeedIndex × List FeedEvent :=
  match ident with
  | none => (feed, [])
  | some did =>
    let f := feed.getD ⟨did, []⟩
    let f' : FeedIndex := ⟨f.author, (⟨cid, ts⟩ :: f.posts).take MAX_FEED_ENTRIES⟩
    (some f', [.saveLocal f', .ipfsAdd f'])

/-- A sequence of `publish_feed` calls threading the on-disk index. -/
def publishAll (ident : String) (feed : Option FeedIndex)
    (pubs : List (String × String)) : Option FeedIndex :=
  pubs.foldl (fun st p => (publish_feed (some ident) st p.1 p.2).1) feed

/-! ## Persisted local state (`identity.load`, `feed._load_json`) -/

/-- A persisted JSON file: `none` = file missing, `some none` = file
present but unparseable (`json.loads` raises `JSONDecodeError`, a
`ValueError`), `some (some v)` = file parses to `v`. -/
abbrev FileState := Option (Option JValue)

/-- `feed._load_json`: default when the file is missing, default when
`json.loads` raises. -/
def _load_json (fs : FileState) (default : JValue) : JValue :=
  match fs with
  | none => default
  | some none => default
  | some (some v) => v

/-- `identity.load`: `None` when the identity file is missing; otherwise
`json.loads(...)` with **no** handler, so an unparseable file raises. -/
def identity_load (fs : FileState) : Except Err (Option JValue) :=
  match fs with
  | none => .ok none
  | some none => .error .valueError
  | some (some v) => .ok (some v)

/-- Python `dict.setdefault`: insert at the end if the key is absent. -/
def setdefault (d : Dict) (k : String) (v : JValue) : Dict :=
  if (dictGet d k).isSome then d else d ++ [(k, v)]

/-- The normalization loop of `load_following`: a string item becomes a
fresh entry dict, a dict item gets `addedAt`/`lastSeenCids` defaults,
anything else is dropped. -/
def normalizeFollowing (items : List JValue) : List Dict :=
  items.foldr (fun it acc =>
    match it with
    | .str s => [("did", .str s), ("addedAt", .str ""), ("lastSeenCids", .arr [])] :: acc
    | .obj kvs =>
      setdefault (setdefault kvs "addedAt" (.str "")) "lastSeenCids" (.arr []) :: acc
    | _ => acc) []

/-- `feed.load_following`: `_load_json(FOLLOWING_FILE, [])`, then
`for item in raw` with the normalization above.  Python iteration of the
possible `json.loads` results: a list yields its items, a string yields
its characters (each a one-character string), a dict yields its keys
(strings); a number, boolean or `None` raises `TypeError`. -/
def load_following (fs : FileState) : Except Err (List Dict) :=
  match _load_json fs (.arr []) with
  | .arr items => .ok (normalizeFollowing items)
  | .str s => .ok (normalizeFollowing (s.toList.map (fun c => .str (String.mk [c]))))
  | .obj kvs => .ok (normalizeFollowing (kvs.map (fun kv => .str kv.1)))
  | _ => .error .typeError

/-- `feed._load_feed_index`: `_load_json(FEED_FILE, None)`; `none` is
Python `None` (also what a file containing JSON `null` parses to). -/
def _load_feed_index (fs : FileState) : Option JValue :=
  match _load_json fs .null with
  | .null => none
  | v => some v

/-! ## Poll and publish lemmas -/

/-- What a poll observes for one entry: the feed document's cid list, or
`none` on a name-derivation, resolution, or fetch failure. -/
def entryPosts (w : World) (e : FollowEntry) : Option (List String) :=
  match did_to_ipns_name e.did with
  | .error _ => none
  | .ok name =>
    match w.resolve name with
    | none => none
    | some feedCid => w.feedPosts feedCid

theorem processEntry_eq (w : World) (e : FollowEntry) :
    processEntry w e =
      match entryPosts w e with
      | none => (e, 0, false)
      | some posts =>
        if posts = [] then (e, 0, true)
        else ({ e with lastSeenCids := posts },
          (posts.filter (fun c => !(e.lastSeenCids.contains c))).foldl (ingestStep w e.did) 0,
          true) := by
  unfold processEntry entryPosts
  cases did_to_ipns_name e.did with
  | error err => rfl
  | ok name =>
    dsimp only
    cases w.resolve name with
    | none => rfl
    | some feedCid => rfl

theorem entryPosts_set_lastSeen (w : World) (e : FollowEntry) (posts : List String) :
    entryPosts w { e with lastSeenCids := posts } = entryPosts w e := rfl

theorem filter_not_contains_self (posts : List String) :
    posts.filter (fun c => !(posts.contains c)) = [] := by
  apply List.filter_eq_nil_iff.mpr
  intro c hc
  simp [hc]

/-- A successful second poll of an unchanged world ingests nothing and
rewrites the same `lastSeenCids`. -/
theorem processEntry_idem (w : World) (e : FollowEntry) :
    processEntry w (processEntry w e).1 = ((processEntry w e).1, 0, (processEntry w e).2.2) := by
  rcases hp : entryPosts w e with _ | posts
  · simp [processEntry_eq w e, hp]
  · by_cases hnil : posts = []
    · subst hnil
      simp [processEntry_eq w e, hp]
    · have he' : entryPosts w { e with lastSeenCids := posts } = some posts := by
        rw [entryPosts_set_lastSeen, hp]
      simp only [processEntry_eq w e, hp, if_neg hnil]
      rw [processEntry_eq w { e with lastSeenCids := posts }, he']
      have hfil : List.filter (fun c => !decide (c ∈ posts)) posts = [] := by
        apply List.filter_eq_nil_iff.mpr
        intro c hc
        simp [hc]
      simp [hnil, filter_not_contains_self, hfil]

theorem check_feeds_idem (w : World) (entries : List FollowEntry) :
    check_feeds w (check_feeds w entries).1 = ((check_feeds w entries).1, 0) := by
  unfold check_feeds
  simp only [List.map_map]
  rw [Prod.mk.injEq]
  constructor
  · apply List.map_congr_left
    intro e _
    show (processEntry w (processEntry w e).1).1 = (processEntry w e).1
    rw [processEntry_idem]
  · apply List.sum_eq_zero
    intro n hn
    simp only [List.mem_map, Function.comp] at hn
    obtain ⟨e, _, he⟩ := hn
    rw [processEntry_idem] at he
    exact he.symm

/-! ## Ingest counting -/

/-- The acceptance test of the poll's verification gate, as the claim
states it: the post must fetch, its `author` field must equal the
followed did, and its signature must verify. -/
def ingestOK (w : World) (did cid : String) : Bool :=
  match w.fetchPost cid with
  | none => false
  | some post =>
    (match dictGet post "author" with
     | some (.str a) => decide (a = did)
     | _ => false)
    && (match verify_post post with | .ok true => true | _ => false)

theorem ingestStep_eq (w : World) (did : String) (acc : Nat) (cid : String) :
    ingestStep w did acc cid = acc + (if ingestOK w did cid then 1 else 0) := by
  unfold ingestStep ingestOK fetch
  cases w.fetchPost cid with
  | none => simp
  | some post =>
    dsimp only
    cases hv : verify_post post with
    | error err =>
      cases dictGet post "author" with
      | none => simp
      | some v => cases v <;> simp
    | ok verified =>
      dsimp only
      cases dictGet post "author" with
      | none => simp
      | some v =>
        cases v <;> try simp
        rename_i a
        by_cases ha : a = did
        · subst ha
          cases verified <;> simp
        · simp [ha]

theorem ingest_foldl_count (w : World) (did : String) :
    ∀ (cids : List String) (acc : Nat),
      cids.foldl (ingestStep w did) acc = acc + (cids.filter (ingestOK w did)).length := by
  intro cids
  induction cids with
  | nil => intro acc; simp
  | cons c cs ih =>
    intro acc
    rw [List.foldl_cons, ih, ingestStep_eq]
    by_cases hc : ingestOK w did c
    · simp [List.filter_cons, hc]
      omega
    · simp [List.filter_cons, hc]

/-- The cids of a feed document that were not in `lastSeenCids` before
the poll. -/
def newCids (w : World) (e : FollowEntry) : List String :=
  match entryPosts w e with
  | none => []
  | some posts => posts.filter (fun c => !(e.lastSeenCids.contains c))

theorem processEntry_count (w : World) (e : FollowEntry) :
    (processEntry w e).2.1 = ((newCids w e).filter (ingestOK w e.did)).length := by
  rw [processEntry_eq]
  unfold newCids
  cases entryPosts w e with
  | none => simp
  | some posts =>
    dsimp only
    by_cases hnil : posts = []
    · subst hnil
      simp
    · rw [if_neg hnil]
      dsimp only
      rw [ingest_foldl_count]
      simp

/-! ## Publish lemmas -/

theorem take_append_take (n : Nat) {α : Type} (A B : List α) :
    (A ++ B.take n).take n = (A ++ B).take n := by
  rw [List.take_append_eq_append_take, List.take_append_eq_append_take, List.take_take,
    Nat.min_eq_left (Nat.sub_le _ _)]

theorem publish_feed_step (ident : String) (feed : Option FeedIndex) (cid ts : String) :
    publish_feed (some ident) feed cid ts
      = (some ⟨(feed.getD ⟨ident, []⟩).author,
          (⟨cid, ts⟩ :: (feed.getD ⟨ident, []⟩).posts).take MAX_FEED_ENTRIES⟩,
         [.saveLocal ⟨(feed.getD ⟨ident, []⟩).author,
            (⟨cid, ts⟩ :: (feed.getD ⟨ident, []⟩).posts).take MAX_FEED_ENTRIES⟩,
          .ipfsAdd ⟨(feed.getD ⟨ident, []⟩).author,
            (⟨cid, ts⟩ :: (feed.getD ⟨ident, []⟩).posts).take MAX_FEED_ENTRIES⟩]) := rfl

theorem publishAll_some (ident : String) :
    ∀ (pubs : List (String × String)) (f : FeedIndex), pubs ≠ [] →
      publishAll ident (some f) pubs
        = some ⟨f.author,
            ((pubs.map (fun p => FeedPost.mk p.1 p.2)).reverse ++ f.posts).take MAX_FEED_ENTRIES⟩ := by
  intro pubs
  induction pubs with
  | nil => intro f h; exact absurd rfl h
  | cons p ps ih =>
    intro f _
    show publishAll ident (some ⟨f.author, (⟨p.1, p.2⟩ :: f.posts).take MAX_FEED_ENTRIES⟩) ps = _
    by_cases hps : ps = []
    · subst hps
      simp [publishAll]
    · rw [ih _ hps]
      congr 1
      rw [FeedIndex.mk.injEq]
      refine ⟨rfl, ?_⟩
      show ((ps.map (fun p => FeedPost.mk p.1 p.2)).reverse
          ++ (⟨p.1, p.2⟩ :: f.posts).take MAX_FEED_ENTRIES).take MAX_FEED_ENTRIES = _
      rw [show (⟨p.1, p.2⟩ :: f.posts : List FeedPost)
          = [FeedPost.mk p.1 p.2] ++ f.posts from rfl]
      rw [show ((ps.map (fun p => FeedPost.mk p.1 p.2)).reverse
            ++ ([FeedPost.mk p.1 p.2] ++ f.posts).take MAX_FEED_ENTRIES)
          = ((ps.map (fun p => FeedPost.mk p.1 p.2)).reverse
            ++ (([FeedPost.mk p.1 p.2] ++ f.posts).take MAX_FEED_ENTRIES)) from rfl]
      rw [take_append_take]
      simp [List.append_assoc]

theorem publishAll_eq (ident : String) (feed : Option FeedIndex)
    (pubs : List (String × String)) (h : pubs ≠ []) :
    publishAll ident feed pubs
      = some ⟨(feed.getD ⟨ident, []⟩).author,
          ((pubs.map (fun p => FeedPost.mk p.1 p.2)).reverse
            ++ (feed.getD ⟨ident, []⟩).posts).take MAX_FEED_ENTRIES⟩ := by
  cases feed with
  | some f => exact publishAll_some ident pubs f h
  | none =>
    cases pubs with
    | nil => exact absurd rfl h
    | cons p ps =>
      have hstep : publishAll ident none (p :: ps)
          = publishAll ident (some ⟨ident, (⟨p.1, p.2⟩ :: []).take MAX_FEED_ENTRIES⟩) ps := rfl
      by_cases hps : ps = []
      · subst hps
        simp [hstep, publishAll, publish_feed]
      · rw [hstep, publishAll_some ident ps _ hps]
        simp
        congr 2

/-! ## Claims -/

/-- The signed envelope built by `create_post` + `sign_post` with the
local keypair: the author is the DID of the local verify key, the
signature covers the canonical payload. -/
def signedEnvelope (seed : List Nat) (content : String) (reply_to : Option String)
    (post_type timestamp : String) : Dict :=
  sign_post seed
    (create_post (_encode_did_key (nacl_verify_key seed)) content reply_to post_type timestamp)

/-- An envelope of the `create_post` shape with freely chosen fields
(author = DID of `pk'`) carrying the *original* signature of
`signedEnvelope seed content reply_to post_type timestamp`. -/
def tamperedEnvelope (seed : List Nat) (content : String) (reply_to : Option String)
    (post_type timestamp : String) (pk' : List Nat) (content' : String)
    (reply_to' : Option String) (post_type' timestamp' : String) (v' : Int) : Dict :=
  postFields (_encode_did_key pk') content' reply_to' post_type' timestamp' v'
    ++ [("signature", .str (listStr (b64encode (identity_sign seed (_signing_payload
        (create_post (_encode_did_key (nacl_verify_key seed)) content reply_to post_type
          timestamp))))))]

/-- Claim C1: for every envelope built by `create_post` and signed with
the local keypair whose DID is the author field,
`verify_post (sign_post m)` is true; altering any field other than
`signature` (content, reply_to, timestamp, type, or the version number),
or replacing the author by the DID of a different valid 32-byte key,
makes `verify_post` return false.  The payload that is signed and
re-verified is the canonical JSON serialization (keys sorted, no
whitespace, `signature` removed, `ensure_ascii` escaping), whose exact
shape the final conjunct exhibits. -/
theorem C1_signature_soundness (seed : List Nat) (hlen : seed.length = 32)
    (hb : ∀ b ∈ seed, b < 256) (content : String) (reply_to : Option String)
    (post_type timestamp : String) :
    verify_post (signedEnvelope seed content reply_to post_type timestamp) = .ok true
    ∧ (∀ content', content' ≠ content →
        verify_post (tamperedEnvelope seed content reply_to post_type timestamp
          seed content' reply_to post_type timestamp MESSAGE_VERSION) = .ok false)
    ∧ (∀ reply_to', reply_to' ≠ reply_to →
        verify_post (tamperedEnvelope seed content reply_to post_type timestamp
          seed content reply_to' post_type timestamp MESSAGE_VERSION) = .ok false)
    ∧ (∀ timestamp', timestamp' ≠ timestamp →
        verify_post (tamperedEnvelope seed content reply_to post_type timestamp
          seed content reply_to post_type timestamp' MESSAGE_VERSION) = .ok false)
    ∧ (∀ post_type', post_type' ≠ post_type →
        verify_post (tamperedEnvelope seed content reply_to post_type timestamp
          seed content reply_to post_type' timestamp MESSAGE_VERSION) = .ok false)
    ∧ (∀ v', v' ≠ MESSAGE_VERSION →
        verify_post (tamperedEnvelope seed content reply_to post_type timestamp
          seed content reply_to post_type timestamp v') = .ok false)
    ∧ (∀ pk', pk'.length = 32 → (∀ b ∈ pk', b < 256) → pk' ≠ seed →
        verify_post (tamperedEnvelope seed content reply_to post_type timestamp
          pk' content reply_to post_type timestamp MESSAGE_VERSION) = .ok false)
    ∧ _signing_payload_chars (signedEnvelope seed content reply_to post_type timestamp)
        = renderSegs (postSegs (_encode_did_key seed) content reply_to post_type timestamp
            MESSAGE_VERSION) := by
  refine ⟨?_, ?_, ?_, ?_, ?_, ?_, ?_, ?_⟩
  · exact verify_post_sign_postFields seed hlen hb content reply_to post_type timestamp
  · intro content' hne
    exact verify_post_tampered seed seed hlen hb hlen hb content content' reply_to reply_to
      post_type post_type timestamp timestamp MESSAGE_VERSION (fun hc => hne hc.2.1)
  · intro reply_to' hne
    exact verify_post_tampered seed seed hlen hb hlen hb content content reply_to reply_to'
      post_type post_type timestamp timestamp MESSAGE_VERSION (fun hc => hne hc.2.2.1)
  · intro timestamp' hne
    exact verify_post_tampered seed seed hlen hb hlen hb content content reply_to reply_to
      post_type post_type timestamp timestamp' MESSAGE_VERSION (fun hc => hne hc.2.2.2.1)
  · intro post_type' hne
    exact verify_post_tampered seed seed hlen hb hlen hb content content reply_to reply_to
      post_type post_type' timestamp timestamp MESSAGE_VERSION (fun hc => hne hc.2.2.2.2.1)
  · intro v' hne
    exact verify_post_tampered seed seed hlen hb hlen hb content content reply_to reply_to
      post_type post_type timestamp timestamp v' (fun hc => hne hc.2.2.2.2.2)
  · intro pk' hlen' hb' hne
    exact verify_post_tampered seed pk' hlen hb hlen' hb' content content reply_to reply_to
      post_type post_type timestamp timestamp MESSAGE_VERSION (fun hc => hne hc.1)
  · show _signing_payload_chars
        (postFields (_encode_did_key seed) content reply_to post_type timestamp MESSAGE_VERSION
          ++ [("signature", _)]) = _
    rw [signing_payload_chars_append_sig]
    exact payload_postFields (_encode_did_key seed) content reply_to post_type timestamp
      MESSAGE_VERSION

theorem C1_signature_soundness_witness :
    (List.replicate 32 7).length = 32 ∧ (∀ b ∈ List.replicate 32 7, b < 256)
    ∧ verify_post (signedEnvelope (List.replicate 32 7) "hello" none "post"
        "2026-01-01T00:00:00+00:00") = .ok true
    ∧ verify_post (tamperedEnvelope (List.replicate 32 7) "hello" none "post"
        "2026-01-01T00:00:00+00:00" (List.replicate 32 7) "tampered" none "post"
        "2026-01-01T00:00:00+00:00" MESSAGE_VERSION) = .ok false := by
  have h1 : (List.replicate 32 7).length = 32 := by simp
  have h2 : ∀ b ∈ List.replicate 32 7, b < 256 := by
    intro b hbm
    rw [List.eq_of_mem_replicate hbm]
    norm_num
  have hc := C1_signature_soundness (List.replicate 32 7) h1 h2 "hello" none "post"
    "2026-01-01T00:00:00+00:00"
  exact ⟨h1, h2, hc.1, hc.2.1 "tampered" (by decide)⟩

/-- Claim C2: for every 32-byte public key,
`_decode_did_key (_encode_did_key pk) = pk`, and `_encode_did_key` is
injective on 32-byte keys. -/
theorem C2_did_key_roundtrip (pk : List Nat) (hlen : pk.length = 32)
    (hb : ∀ b ∈ pk, b < 256) :
    _decode_did_key (_encode_did_key pk) = .ok pk
    ∧ ∀ pk', pk'.length = 32 → (∀ b ∈ pk', b < 256) → pk' ≠ pk →
        _encode_did_key pk' ≠ _encode_did_key pk := by
  refine ⟨decode_encode_did_key pk hlen hb, ?_⟩
  intro pk' hlen' hb' hne heq
  exact hne (encode_did_key_injective hlen' hb' hlen hb heq)

theorem C2_did_key_roundtrip_witness :
    (List.replicate 32 5).length = 32 ∧ (∀ b ∈ List.replicate 32 5, b < 256)
    ∧ _decode_did_key (_encode_did_key (List.replicate 32 5)) = .ok (List.replicate 32 5)
    ∧ _encode_did_key (List.replicate 32 6) ≠ _encode_did_key (List.replicate 32 5) := by
  have h1 : (List.replicate 32 5).length = 32 := by simp
  have h2 : ∀ b ∈ List.replicate 32 5, b < 256 := by
    intro b hbm
    rw [List.eq_of_mem_replicate hbm]
    norm_num
  have hc := C2_did_key_roundtrip (List.replicate 32 5) h1 h2
  refine ⟨h1, h2, hc.1, hc.2 (List.replicate 32 6) (by simp) ?_ (by decide)⟩
  intro b hbm
  rw [List.eq_of_mem_replicate hbm]
  norm_num

theorem ipnsRecordBytes_lt (pk : List Nat) (hb : ∀ b ∈ pk, b < 256) :
    ∀ b ∈ ipnsRecordBytes pk, b < 256 := by
  intro b hbm
  unfold ipnsRecordBytes at hbm
  rcases List.mem_append.mp hbm with h | h
  · simp only [List.mem_cons, List.not_mem_nil, or_false] at h
    rcases h with rfl | rfl | rfl | rfl | rfl | rfl | rfl | rfl <;> norm_num
  · exact hb b h

/-- Claim C3: `did_to_ipns_name` on the DID of a 32-byte key is `'k'`
followed by the base-36 encoding of the 40-byte record 0x01 0x72 0x00
0x24 0x08 0x01 0x12 0x20 ++ key, and the map from key to name is
injective.  Determinism is immediate: `did_to_ipns_name` is a pure
function of its argument. -/
theorem C3_ipns_name_derivation (pk : List Nat) (hlen : pk.length = 32)
    (hb : ∀ b ∈ pk, b < 256) :
    did_to_ipns_name (_encode_did_key pk)
      = .ok (String.mk ('k' :: _base36_encode (ipnsRecordBytes pk)))
    ∧ ∀ pk', pk'.length = 32 → (∀ b ∈ pk', b < 256) → pk' ≠ pk →
        did_to_ipns_name (_encode_did_key pk') ≠ did_to_ipns_name (_encode_did_key pk) := by
  refine ⟨did_to_ipns_name_encode pk hlen hb, ?_⟩
  intro pk' hlen' hb' hne heq
  rw [did_to_ipns_name_encode pk hlen hb, did_to_ipns_name_encode pk' hlen' hb'] at heq
  have hmk := (Except.ok.injEq _ _).mp heq
  have hlist : 'k' :: _base36_encode (ipnsRecordBytes pk')
      = 'k' :: _base36_encode (ipnsRecordBytes pk) := congrArg String.data hmk
  have hb36 : _base36_encode (ipnsRecordBytes pk') = _base36_encode (ipnsRecordBytes pk) := by
    injection hlist
  have hrec := base36_encode_injective (ipnsRecordBytes_lt pk' hb') (ipnsRecordBytes_lt pk hb)
    (by simp [ipnsRecordBytes, hlen, hlen']) hb36
  exact hne (List.append_cancel_left hrec)

theorem C3_ipns_name_derivation_witness :
    (List.replicate 32 9).length = 32 ∧ (∀ b ∈ List.replicate 32 9, b < 256)
    ∧ did_to_ipns_name (_encode_did_key (List.replicate 32 9))
        = .ok (String.mk ('k' :: _base36_encode (ipnsRecordBytes (List.replicate 32 9))))
    ∧ did_to_ipns_name (_encode_did_key (List.replicate 32 4))
        ≠ did_to_ipns_name (_encode_did_key (List.replicate 32 9)) := by
  have h1 : (List.replicate 32 9).length = 32 := by simp
  have h2 : ∀ b ∈ List.replicate 32 9, b < 256 := by
    intro b hbm
    rw [List.eq_of_mem_replicate hbm]
    norm_num
  have hc := C3_ipns_name_derivation (List.replicate 32 9) h1 h2
  refine ⟨h1, h2, hc.1, hc.2 (List.replicate 32 4) (by simp) ?_ (by decide)⟩
  intro b hbm
  rw [List.eq_of_mem_replicate hbm]
  norm_num

/-- Claim C4: during a poll, an entry's ingested count is exactly the
number of its new posts (cids in the feed index not in `lastSeenCids`)
that fetch, whose `author` field equals the followed did, and whose
signature verifies (`ingestOK`); a post failing either check is never
counted, even though its cid appears in the feed index, and the
`check_feeds` total is the sum of these per-entry counts. -/
theorem C4_verification_gate :
    (∀ w e, (processEntry w e).2.1 = ((newCids w e).filter (ingestOK w e.did)).length)
    ∧ ∀ w entries, (check_feeds w entries).2
        = (entries.map (fun e => ((newCids w e).filter (ingestOK w e.did)).length)).sum := by
  refine ⟨processEntry_count, ?_⟩
  intro w entries
  unfold check_feeds
  dsimp only
  congr 1
  apply List.map_congr_left
  intro e _
  exact processEntry_count w e

/-- Claim C6 (amended): a second poll against an unchanged world ingests
0 messages and leaves every entry (in particular its `lastSeenCids`)
unchanged; after a successful per-entry poll that observes a *non-empty*
post list, `lastSeenCids` is replaced (not unioned) with exactly the
observed cid list; but a successful poll that observes an *empty* post
list leaves `lastSeenCids` unchanged — the code `continue`s before the
update, so the claim's unconditional replacement does not hold there. -/
theorem C6_poll_idempotent :
    (∀ w entries, check_feeds w (check_feeds w entries).1 = ((check_feeds w entries).1, 0))
    ∧ (∀ w e posts, entryPosts w e = some posts → posts ≠ [] →
        (processEntry w e).1.lastSeenCids = posts)
    ∧ (∀ w e, entryPosts w e = some [] → (processEntry w e).1 = e) := by
  refine ⟨check_feeds_idem, ?_, ?_⟩
  · intro w e posts hp hnil
    rw [processEntry_eq, hp]
    dsimp only
    rw [if_neg hnil]
  · intro w e hp
    rw [processEntry_eq, hp]
    rfl

def c6World : World := ⟨fun _ => some "feedcid", fun _ => some [], fun _ => none⟩

def c6Entry : FollowEntry :=
  ⟨"did:key:z6Mkef1w29eU7SP9XmbDzTwbiisHZ3uTS5JpNEuu1R6pADkW", none, "", ["a"]⟩

set_option maxRecDepth 4096 in
/-- Claim C6, counterexample to the replacement part as stated: a poll
that succeeds (resolution and fetch both work) but observes an empty
post list does **not** replace `lastSeenCids` with the observed (empty)
identifier set — the stale cid `"a"` survives. -/
theorem C6_poll_counterexample :
    entryPosts c6World c6Entry = some []
    ∧ (processEntry c6World c6Entry).2.2 = true
    ∧ (check_feeds c6World [c6Entry]).1 = [c6Entry]
    ∧ c6Entry.lastSeenCids = ["a"] :=
  ⟨rfl, rfl, rfl, rfl⟩

/-- Claim C6, witness for the conditional parts. -/
def c6WorldW : World := ⟨fun _ => some "feedcid", fun _ => some ["c1"], fun _ => none⟩

def c6EntryW : FollowEntry :=
  ⟨"did:key:z6Mkef1w29eU7SP9XmbDzTwbiisHZ3uTS5JpNEuu1R6pADkW", none, "", []⟩

set_option maxRecDepth 4096 in
theorem C6_poll_idempotent_witness :
    check_feeds c6WorldW (check_feeds c6WorldW [c6EntryW]).1
      = ((check_feeds c6WorldW [c6EntryW]).1, 0)
    ∧ entryPosts c6WorldW c6EntryW = some ["c1"]
    ∧ (processEntry c6WorldW c6EntryW).1.lastSeenCids = ["c1"] := by
  refine ⟨C6_poll_idempotent.1 c6WorldW [c6EntryW], rfl,
    C6_poll_idempotent.2.1 c6WorldW c6EntryW ["c1"] rfl (by decide)⟩

/-- Claim C10 (amended): entries whose name derivation, resolution or
feed fetch fails keep exactly their pre-poll state; entries that succeed
and observe a *non-empty* post list get `lastSeenCids` replaced with the
observed list while did/alias/addedAt are untouched; entries that
succeed but observe an *empty* post list are also left exactly as they
were (the code `continue`s before the update); the persisted list (the
first component of `check_feeds`, which is what `save_following` writes
once at the end) has one entry per input entry. -/
theorem C10_error_isolation (w : World) (entries : List FollowEntry) (i : Nat)
    (e : FollowEntry) (he : entries[i]? = some e) :
    (check_feeds w entries).1.length = entries.length
    ∧ (entryPosts w e = none → (check_feeds w entries).1[i]? = some e)
    ∧ (∀ posts, entryPosts w e = some posts → posts ≠ [] →
        ∃ e', (check_feeds w entries).1[i]? = some e'
          ∧ e'.lastSeenCids = posts ∧ e'.did = e.did ∧ e'.alias_ = e.alias_
          ∧ e'.addedAt = e.addedAt)
    ∧ (entryPosts w e = some [] → (check_feeds w entries).1[i]? = some e) := by
  unfold check_feeds
  dsimp only
  refine ⟨by simp, ?_, ?_, ?_⟩
  · intro hp
    rw [List.getElem?_map, he]
    simp only [Option.map_some']
    rw [processEntry_eq, hp]
  · intro posts hp hnil
    refine ⟨{ e with lastSeenCids := posts }, ?_, rfl, rfl, rfl, rfl⟩
    rw [List.getElem?_map, he]
    simp only [Option.map_some']
    rw [processEntry_eq, hp]
    dsimp only
    rw [if_neg hnil]
  · intro hp
    rw [List.getElem?_map, he]
    simp only [Option.map_some']
    rw [processEntry_eq, hp]
    rfl

def c10World : World := ⟨fun _ => some "f", fun _ => some ["x"], fun _ => none⟩

def c10EntryBad : FollowEntry := ⟨"not-a-did", none, "", ["old"]⟩

def c10EntryGood : FollowEntry :=
  ⟨"did:key:z6Mkeb6dsrBTX95vPgLiZAcgRr6XJthFm1czoqFEx34DQtRo", none, "", []⟩

theorem C10_error_isolation_witness :
    ([c10EntryBad, c10EntryGood][0]? = some c10EntryBad)
    ∧ (check_feeds c10World [c10EntryBad, c10EntryGood]).1.length = 2
    ∧ (check_feeds c10World [c10EntryBad, c10EntryGood]).1[0]? = some c10EntryBad := by
  have he : [c10EntryBad, c10EntryGood][0]? = some c10EntryBad := rfl
  have hc := C10_error_isolation c10World [c10EntryBad, c10EntryGood] 0 c10EntryBad he
  exact ⟨he, hc.1.trans rfl, hc.2.1 rfl⟩

def c10WorldE : World := ⟨fun _ => some "fc", fun _ => some [], fun _ => none⟩

def c10EntryE : FollowEntry :=
  ⟨"did:key:z6Mkeb6dsrBTX95vPgLiZAcgRr6XJthFm1czoqFEx34DQtRo", none, "",
    ["stale1", "stale2"]⟩

set_option maxRecDepth 4096 in
/-- Claim C10, counterexample to the claim as stated: an entry whose
resolution and fetch both succeed (the observed post list is `some []`
and the per-entry success flag is `true`) does **not** have its
`lastSeenCids` updated — the persisted list returns the entry with its
stale pre-poll cids intact, because the empty-feed `continue` skips the
update. -/
theorem C10_error_isolation_counterexample :
    entryPosts c10WorldE c10EntryE = some []
    ∧ (processEntry c10WorldE c10EntryE).2.2 = true
    ∧ (check_feeds c10WorldE [c10EntryE]).1 = [c10EntryE]
    ∧ c10EntryE.lastSeenCids = ["stale1", "stale2"] :=
  ⟨rfl, rfl, rfl, rfl⟩

/-- Claim C5: every `publish_feed` call prepends the new
`{cid, timestamp}` entry, truncates to `MAX_FEED_ENTRIES` (100), and
saves the index locally before the store add (the trace lists
`saveLocal` first); after more than 100 publishes, the index holds
exactly the 100 most recently published entries, newest first. -/
theorem C5_feed_cap (ident : String) (feed₀ : Option FeedIndex)
    (pubs : List (String × String)) (hlen : pubs.length > 100) :
    (∀ feed cid ts, publish_feed (some ident) feed cid ts
        = (some ⟨(feed.getD ⟨ident, []⟩).author,
            (⟨cid, ts⟩ :: (feed.getD ⟨ident, []⟩).posts).take MAX_FEED_ENTRIES⟩,
           [.saveLocal ⟨(feed.getD ⟨ident, []⟩).author,
              (⟨cid, ts⟩ :: (feed.getD ⟨ident, []⟩).posts).take MAX_FEED_ENTRIES⟩,
            .ipfsAdd ⟨(feed.getD ⟨ident, []⟩).author,
              (⟨cid, ts⟩ :: (feed.getD ⟨ident, []⟩).posts).take MAX_FEED_ENTRIES⟩]))
    ∧ ∃ f, publishAll ident feed₀ pubs = some f
        ∧ f.posts = ((pubs.map (fun p => FeedPost.mk p.1 p.2)).reverse).take MAX_FEED_ENTRIES
        ∧ f.posts.length = MAX_FEED_ENTRIES := by
  constructor
  · intro feed cid ts
    exact publish_feed_step ident feed cid ts
  · have hne : pubs ≠ [] := by
      intro h
      subst h
      simp at hlen
    refine ⟨_, publishAll_eq ident feed₀ pubs hne, ?_, ?_⟩
    · dsimp only
      rw [List.take_append_of_le_length]
      simp only [List.length_reverse, List.length_map]
      show MAX_FEED_ENTRIES ≤ pubs.length
      unfold MAX_FEED_ENTRIES
      omega
    · dsimp only
      rw [List.length_take, List.length_append, List.length_reverse, List.length_map]
      unfold MAX_FEED_ENTRIES
      omega

theorem C5_feed_cap_witness :
    ((List.range 101).map (fun i => (toString i, "t"))).length > 100
    ∧ ∃ f, publishAll "author" none ((List.range 101).map (fun i => (toString i, "t")))
        = some f
      ∧ f.posts = ((((List.range 101).map (fun i => (toString i, "t"))).map
          (fun p => FeedPost.mk p.1 p.2)).reverse).take MAX_FEED_ENTRIES
      ∧ f.posts.length = MAX_FEED_ENTRIES := by
  have h : ((List.range 101).map (fun i => (toString i, "t"))).length > 100 := by simp
  exact ⟨h, (C5_feed_cap "author" none _ h).2⟩

def c7Post : Dict :=
  [("author", .str (String.mk ("did:key:z".toList ++ List.replicate 48 'z'))),
   ("signature", .str "")]

set_option maxRecDepth 8192 in
/-- Claim C7 (code bug): `verify_post` is *not* total on dicts.  On an
envelope whose `signature` is a (string) value and whose `author` is a
well-formed-looking `did:key:z…` string with an oversized base-58
payload, `int.to_bytes(34, "big")` inside `_decode_did_key` raises
`OverflowError`, which neither `identity.verify`'s
`except (BadSignatureError, ValueError)` nor `verify_post`'s
`except (KeyError, ValueError)` catches — so `verify_post` raises
instead of returning `False`. -/
theorem C7_verify_post_raises :
    verify_post c7Post = .error .overflowError ∧ Err.overflowError ≠ Err.valueError :=
  ⟨rfl, by decide⟩

def c8Did : String := String.mk ("did:key:z".toList ++ List.replicate 50 'y')

set_option maxRecDepth 8192 in
/-- Claim C8 (code bug): `_decode_did_key` does not fail with a
`ValueError` (the code's FormatError) when the decoded value needs more
than 34 bytes: `num.to_bytes(34, "big")` raises `OverflowError`, which
is not a `ValueError`, so FormatError-expecting callers crash. -/
theorem C8_decode_overflow :
    _decode_did_key c8Did = .error .overflowError ∧ Err.overflowError ≠ Err.valueError :=
  ⟨rfl, by decide⟩

/-- Claim C9 (amended): a missing identity file loads as `None` and a
missing-or-corrupt follow list / feed index loads as the empty/default
value, but a *corrupt* (unparseable) identity file makes
`identity.load` raise `json.JSONDecodeError` (a `ValueError`) — only
`feed._load_json` catches decode errors. -/
theorem C9_loaders_default :
    identity_load none = .ok none
    ∧ identity_load (some none) = .error .valueError
    ∧ load_following none = .ok [] ∧ load_following (some none) = .ok []
    ∧ _load_feed_index none = none ∧ _load_feed_index (some none) = none :=
  ⟨rfl, rfl, rfl, rfl, rfl, rfl⟩

/-- Claim C9, counterexample to the claim as stated: loading a corrupt
identity file does not return the default `None` — it raises. -/
theorem C9_corrupt_identity_raises :
    identity_load (some none) = .error .valueError
    ∧ (.error .valueError : Except Err (Option JValue)) ≠ .ok none :=
  ⟨rfl, fun h => Except.noConfusion h⟩
